import Mathlib

/-!
Verification of the `cerebros_numerics` GEMM kernel
(`src/native/cerebros_numerics/src/lib.rs`, function `gemm_fp16_acc32`).

The kernel multiplies an m×k by a k×n matrix of little-endian fp16 values,
accumulating in fp32, and returns the m×n fp16 result as bytes.

Shallow embedding conventions:
* `usize` is modelled as `Nat`; overflow-checked multiplications
  (`checked_mul`) return `Option Nat` with `none` exactly when the product
  would exceed `USIZE = 2^64` (the kernel targets a 64-bit platform).
* fp16 / fp32 values are modelled as their IEEE-754 bit patterns
  (`Nat` below `2^16` / `2^32`).  `f32add` / `f32mul` implement the
  round-to-nearest-even binary32 arithmetic that Rust's `f32` operators
  are specified to perform, by exact integer arithmetic followed by a
  single rounding.  `f16_to_f32` / `f32_to_f16` are transliterations of
  the conversions used by the `half` crate (`f32::from(f16)` and
  `f16::from_f32`), which implement the IEEE conversions.
* Byte buffers are `List Nat`.  A Rust `panic` / `assert` (out-of-bounds
  index, rayon's `chunk_size must not be zero` assertion, and the
  deterministic capacity-overflow panic `vec![0f32; mn]` raises when the
  accumulator's byte size `4·mn` exceeds `isize::MAX`) is modelled by
  `Option`: the embedded kernel returns `none` exactly on panicking paths.
* The only fallible allocation surfaced by the source (`OwnedBinary::new`)
  is modelled by an oracle `alloc : Nat → Bool` saying whether allocating
  that many bytes succeeds.
-/

set_option maxRecDepth 4000

/-- Number of values of the 64-bit `usize` type: `usize::MAX + 1`. -/
def USIZE : Nat := 18446744073709551616

/-- Model of `usize::checked_mul`. -/
def checked_mul (x y : Nat) : Option Nat :=
  if x * y < USIZE then some (x * y) else none

/-- The maximum byte size of a Rust allocation (`isize::MAX`):
`Layout::array` rejects any larger request, so `vec![0f32; mn]` panics
with a capacity overflow whenever `4 * mn` exceeds this bound. -/
def ISIZE_MAX : Nat := 9223372036854775807

/-! ### Bit-level IEEE-754 binary floating point -/

/-- Number of binary digits of `n` (0 for 0), computed with explicit fuel so
that the kernel can evaluate it on large numerals. -/
def bitlenAux : Nat → Nat → Nat
  | 0, _ => 0
  | fuel + 1, n => if n = 0 then 0 else bitlenAux fuel (n / 2) + 1

/-- Fuel large enough for every integer manipulated by the binary32 model
(alignment in `f32add` never exceeds a few hundred bits). -/
def BITFUEL : Nat := 512

/-- Number of binary digits of `n` (for `n < 2^512`). -/
def bitlen (n : Nat) : Nat := bitlenAux BITFUEL n

/-- Round the real number `(-1)^s * M * 2^E` (with `M : Nat`) to the nearest
even IEEE-754 value of a format with `mb` mantissa bits and `eb` exponent
bits, returning the resulting bit pattern (infinity on overflow). -/
def roundFin (mb eb : Nat) (s : Nat) (M : Nat) (E : Int) : Nat :=
  if M = 0 then s * 2 ^ (mb + eb)
  else
    let bias : Int := 2 ^ (eb - 1) - 1
    let eTop : Int := E + (bitlen M - 1)
    let ulp : Int := max (eTop - mb) (1 - bias - mb)
    let q : Nat :=
      if E ≥ ulp then M * 2 ^ (E - ulp).toNat
      else
        let sh := (ulp - E).toNat
        let q0 := M / 2 ^ sh
        let rem := M % 2 ^ sh
        let half := 2 ^ (sh - 1)
        if rem > half ∨ (rem = half ∧ q0 % 2 = 1) then q0 + 1 else q0
    let q2 : Nat := if q ≥ 2 ^ (mb + 1) then q / 2 else q
    let ulp2 : Int := if q ≥ 2 ^ (mb + 1) then ulp + 1 else ulp
    if ulp2 + mb > bias then s * 2 ^ (mb + eb) + (2 ^ eb - 1) * 2 ^ mb
    else if q2 < 2 ^ mb then s * 2 ^ (mb + eb) + q2
    else s * 2 ^ (mb + eb) + (ulp2 + bias + mb).toNat * 2 ^ mb + (q2 - 2 ^ mb)

/-- Sign bit of an fp32 bit pattern. -/
def f32sign (x : Nat) : Nat := x / 2 ^ 31 % 2

/-- Exponent field of an fp32 bit pattern. -/
def f32exp (x : Nat) : Nat := x / 2 ^ 23 % 2 ^ 8

/-- Mantissa field of an fp32 bit pattern. -/
def f32man (x : Nat) : Nat := x % 2 ^ 23

/-- The canonical quiet NaN produced by binary32 arithmetic on invalid
operands. -/
def FP32_QNAN : Nat := 0x7FC00000

/-- The positive-infinity fp32 bit pattern. -/
def FP32_INF : Nat := 0x7F800000

def isNaN32 (x : Nat) : Bool := f32exp x = 255 && f32man x != 0

def isInf32 (x : Nat) : Bool := f32exp x = 255 && f32man x = 0

def isZero32 (x : Nat) : Bool := f32exp x = 0 && f32man x = 0

/-- Integer significand and exponent of a finite fp32 bit pattern:
the value is `(-1)^sign * M * 2^E`. -/
def decode32 (x : Nat) : Nat × Int :=
  if f32exp x = 0 then (f32man x, -149)
  else (2 ^ 23 + f32man x, (f32exp x : Int) - 150)

/-- IEEE-754 binary32 multiplication (round to nearest, ties to even) on bit
patterns: the semantics of Rust's `f32` multiplication. -/
def f32mul (x y : Nat) : Nat :=
  let s := (f32sign x + f32sign y) % 2
  if isNaN32 x || isNaN32 y then FP32_QNAN
  else if isInf32 x || isInf32 y then
    if isZero32 x || isZero32 y then FP32_QNAN else s * 2 ^ 31 + FP32_INF
  else if isZero32 x || isZero32 y then s * 2 ^ 31
  else
    let dx := decode32 x
    let dy := decode32 y
    roundFin 23 8 s (dx.1 * dy.1) (dx.2 + dy.2)

/-- IEEE-754 binary32 addition (round to nearest, ties to even) on bit
patterns: the semantics of Rust's `f32` addition. -/
def f32add (x y : Nat) : Nat :=
  if isNaN32 x || isNaN32 y then FP32_QNAN
  else if isInf32 x then
    if isInf32 y && f32sign x ≠ f32sign y then FP32_QNAN else x
  else if isInf32 y then y
  else if isZero32 x && isZero32 y then
    if f32sign x = 1 && f32sign y = 1 then 2 ^ 31 else 0
  else if isZero32 x then y
  else if isZero32 y then x
  else
    let dx := decode32 x
    let dy := decode32 y
    let Emin : Int := min dx.2 dy.2
    let ix : Int := (if f32sign x = 1 then -(dx.1 : Int) else (dx.1 : Int)) *
      2 ^ (dx.2 - Emin).toNat
    let iy : Int := (if f32sign y = 1 then -(dy.1 : Int) else (dy.1 : Int)) *
      2 ^ (dy.2 - Emin).toNat
    let S : Int := ix + iy
    if S = 0 then 0
    else roundFin 23 8 (if S < 0 then 1 else 0) S.natAbs Emin

/-! ### fp16 bit patterns and the `half` crate conversions -/

def f16exp (u : Nat) : Nat := u / 2 ^ 10 % 2 ^ 5

def f16man (u : Nat) : Nat := u % 2 ^ 10

def isNaN16 (u : Nat) : Bool := f16exp u = 31 && f16man u != 0

/-- Model of `f32::from(f16)` (the `half` crate's `f16_to_f32`): exact
promotion of an fp16 bit pattern to an fp32 bit pattern. -/
def f16_to_f32 (u : Nat) : Nat :=
  if u % 2 ^ 15 = 0 then u / 2 ^ 15 % 2 * 2 ^ 31
  else
    let s := u / 2 ^ 15 % 2
    let e5 := f16exp u
    let man := f16man u
    if e5 = 31 then
      if man = 0 then s * 2 ^ 31 + FP32_INF
      else s * 2 ^ 31 + FP32_QNAN + man * 2 ^ 13
    else if e5 = 0 then
      let e := 16 - bitlenAux 16 man - 6
      s * 2 ^ 31 + (112 - e) * 2 ^ 23 + man * 2 ^ (14 + e) % 2 ^ 23
    else s * 2 ^ 31 + (e5 + 112) * 2 ^ 23 + man * 2 ^ 13

/-- Model of `f16::from_f32` (the `half` crate's `f32_to_f16`): IEEE-754
narrowing of an fp32 bit pattern to an fp16 bit pattern, round to nearest,
ties to even. -/
def f32_to_f16 (x : Nat) : Nat :=
  let s := f32sign x
  let e8 := f32exp x
  let man := f32man x
  if e8 = 255 then
    s * 2 ^ 15 + 0x7C00 +
      (if man = 0 ∨ man / 2 ^ 22 = 1 then 0 else 2 ^ 9) + man / 2 ^ 13
  else
    let he : Int := (e8 : Int) - 127 + 15
    if he ≥ 31 then s * 2 ^ 15 + 0x7C00
    else if he ≤ 0 then
      if (14 : Int) - he > 24 then s * 2 ^ 15
      else
        let m24 := man + 2 ^ 23
        let sh := ((14 : Int) - he).toNat
        let hm := m24 / 2 ^ sh
        if m24 / 2 ^ (sh - 1) % 2 = 1 ∧
            (m24 / 2 ^ sh % 2 = 1 ∨ m24 % 2 ^ (sh - 1) ≠ 0) then
          s * 2 ^ 15 + hm + 1
        else s * 2 ^ 15 + hm
    else
      let base := s * 2 ^ 15 + he.toNat * 2 ^ 10 + man / 2 ^ 13
      if man / 2 ^ 12 % 2 = 1 ∧ (man / 2 ^ 13 % 2 = 1 ∨ man % 2 ^ 12 ≠ 0) then
        base + 1
      else base

/-! ### Buffer decoding / encoding -/

/-- Model of `read_fp16_le_slice`: interpret consecutive little-endian byte
pairs as fp16 bit patterns (`chunks_exact(2)` drops a trailing odd byte). -/
def read_fp16_le_slice : List Nat → List Nat
  | b0 :: b1 :: rest => (b0 + 256 * b1) :: read_fp16_le_slice rest
  | _ => []

/-- Model of a bounds-checked slice store `buf[idx] = v` (panic ↦ `none`). -/
def store (buf : List Nat) (idx v : Nat) : Option (List Nat) :=
  if idx < buf.length then some (buf.set idx v) else none

/-- Model of `write_fp16_le_slice`: write each fp16 bit pattern of `data` as
two little-endian bytes at offset `i * 2`, `i` being the element index. -/
def write_fp16_le_slice (buf : List Nat) (data : List Nat) (i : Nat) :
    Option (List Nat) :=
  match data with
  | [] => some buf
  | h :: rest => do
    let o := i * 2
    let buf1 ← store buf o (h % 256)
    let buf2 ← store buf1 (o + 1) (h / 256 % 256)
    write_fp16_le_slice buf2 rest (i + 1)

/-- The little-endian byte serialization of a list of fp16 bit patterns
(the contents a successful `write_fp16_le_slice` produces). -/
def flatBytes : List Nat → List Nat
  | [] => []
  | h :: rest => h % 256 :: h / 256 % 256 :: flatBytes rest

/-! ### The multiply kernel -/

/-- Model of a borrowing slice `&v[lo..hi]` (panic ↦ `none`). -/
def sliceRange (v : List Nat) (lo hi : Nat) : Option (List Nat) :=
  if lo ≤ hi ∧ hi ≤ v.length then some ((v.take hi).drop lo) else none

/-- One multiply step of the inner loop:
`a_row[p] * b_f32[p * n + j]` with bounds-checked reads. -/
def mac (a_row b_f32 : List Nat) (n j p : Nat) : Option Nat := do
  let x ← a_row.get? p
  let y ← b_f32.get? (p * n + j)
  pure (f32mul x y)

/-- The element-by-element remainder loop `while p < k { acc += ...; p += 1 }`,
as structural recursion on the remaining iteration count `cnt = k - p`. -/
def acc_rem_loop (a_row b_f32 : List Nat) (n j : Nat) :
    Nat → Nat → Nat → Option Nat
  | 0, _, acc => pure acc
  | cnt + 1, p, acc => do
    let t ← mac a_row b_f32 n j p
    acc_rem_loop a_row b_f32 n j cnt (p + 1) (f32add acc t)

/-- The remainder loop entered at position `p` (it runs `k - p` times). -/
def acc_rem (a_row b_f32 : List Nat) (n j k : Nat) (p acc : Nat) : Option Nat :=
  acc_rem_loop a_row b_f32 n j (k - p) p acc

/-- The micro-tiled loop `while p + 7 < k { ... p += 8 }`, as structural
recursion on the remaining group count `cnt = (k - p) / 8`; it falls through
to the remainder loop. -/
def acc_microtile_loop (a_row b_f32 : List Nat) (n j k : Nat) :
    Nat → Nat → Nat → Option Nat
  | 0, p, acc => acc_rem a_row b_f32 n j k p acc
  | cnt + 1, p, acc => do
    let t0 ← mac a_row b_f32 n j (p + 0)
    let t1 ← mac a_row b_f32 n j (p + 1)
    let t2 ← mac a_row b_f32 n j (p + 2)
    let t3 ← mac a_row b_f32 n j (p + 3)
    let t4 ← mac a_row b_f32 n j (p + 4)
    let t5 ← mac a_row b_f32 n j (p + 5)
    let t6 ← mac a_row b_f32 n j (p + 6)
    let t7 ← mac a_row b_f32 n j (p + 7)
    let acc := f32add (f32add (f32add (f32add (f32add (f32add (f32add
      (f32add acc t0) t1) t2) t3) t4) t5) t6) t7
    acc_microtile_loop a_row b_f32 n j k cnt (p + 8) acc

/-- The full inner loop of one output element: micro-tiled groups of eight
followed by the element-by-element remainder. -/
def acc_microtile (a_row b_f32 : List Nat) (n j k : Nat) (p acc : Nat) :
    Option Nat :=
  acc_microtile_loop a_row b_f32 n j k ((k - p) / 8) p acc

/-- The column loop `for j in 0..n { ...; row[j] = acc }`, producing the
computed f32 accumulators for columns `j, j+1, ...` (`cnt = n - j` many). -/
def cols_loop (a_row b_f32 : List Nat) (n k : Nat) :
    Nat → Nat → Option (List Nat)
  | 0, _ => pure []
  | cnt + 1, j => do
    let v ← acc_microtile a_row b_f32 n j k 0 0
    let rest ← cols_loop a_row b_f32 n k cnt (j + 1)
    pure (v :: rest)

/-- The `n` accumulators of one output row, in column order. -/
def cols_compute (a_row b_f32 : List Nat) (n k : Nat) : Option (List Nat) :=
  cols_loop a_row b_f32 n k n 0

/-- The body of the `par_chunks_mut(n)` closure for one row chunk: writes
`row[j]` for `j < n` (panicking if the chunk is shorter than `n`), leaving
any remaining elements of the chunk unchanged. -/
def row_chunk_body (a_row b_f32 : List Nat) (n k : Nat) (chunk : List Nat) :
    Option (List Nat) := do
  if n ≤ chunk.length then
    let vals ← cols_compute a_row b_f32 n k
    pure (vals ++ chunk.drop n)
  else none

/-- `slice.chunks(sz)` for `sz > 0` (rayon's `par_chunks_mut` partitioning),
as structural recursion on the chunk count `⌈l.length / sz⌉`. -/
def chunksOf_loop (sz : Nat) : Nat → List Nat → List (List Nat)
  | 0, _ => []
  | cnt + 1, l => l.take sz :: chunksOf_loop sz cnt (l.drop sz)

/-- The chunks of `l` of size `sz` (the last one possibly shorter);
meaningful for `sz > 0`, which the kernel has checked before calling. -/
def chunksOf (l : List Nat) (sz : Nat) : List (List Nat) :=
  chunksOf_loop sz ((l.length + sz - 1) / sz) l

/-- The parallel row loop: `c_f32.par_chunks_mut(n).enumerate().for_each(...)`
with row index `i`.  Row `i` reads the slice `a_f32[i*k..(i+1)*k]`. -/
def rows_compute (a_f32 b_f32 : List Nat) (n k : Nat) :
    List (List Nat) → Nat → Option (List (List Nat))
  | [], _ => pure []
  | chunk :: rest, i => do
    let a_row ← sliceRange a_f32 (i * k) ((i + 1) * k)
    let row ← row_chunk_body a_row b_f32 n k chunk
    let rows ← rows_compute a_f32 b_f32 n k rest (i + 1)
    pure (row :: rows)

/-- The value a call of the NIF returns to the Erlang VM: either a binary
payload or an error tuple built by the `error` helper. -/
inductive NifTerm : Type where
  | okBin (bytes : List Nat)
  | errBadarg
  | errOverflow
  | errAllocFailed
  | errOther (reason : String)
deriving DecidableEq

/-- Model of the `error` helper: maps a reason string to an error tuple. -/
def errorTerm (reason : String) : NifTerm :=
  match reason with
  | "badarg" => NifTerm.errBadarg
  | "overflow" => NifTerm.errOverflow
  | "alloc_failed" => NifTerm.errAllocFailed
  | other => NifTerm.errOther other

/-! ### Specification-side definitions -/

/-- Spec-side definition for the refinement comparison: the naive sequential
accumulation loop, which adds `a_row[p] * b_f32[p*n + j]` to the running
32-bit accumulator for `p = 0, 1, ..., k-1` in order (`cnt` iterations
remaining). -/
def naive_acc (a_row b_f32 : List Nat) (n j : Nat) :
    Nat → Nat → Nat → Option Nat
  | 0, _, acc => pure acc
  | cnt + 1, p, acc => do
    let t ← mac a_row b_f32 n j p
    naive_acc a_row b_f32 n j cnt (p + 1) (f32add acc t)

/-- Spec-side expected byte length of a buffer holding `r * c` fp16 values:
`r·c·2`, with an expected length whose computation would overflow the size
type treated as the maximal value (`usize::MAX`). -/
def spec_expected_len (r c : Nat) : Nat :=
  if r * c * 2 < USIZE then r * c * 2 else USIZE - 1

/-- The fp32 product contributed at contraction position `p` (total form,
with out-of-range reads defaulting to `0`; the bridging lemmas below only
use it at in-range positions). -/
def spec_mac_val (a_row b_f32 : List Nat) (n j p : Nat) : Nat :=
  f32mul (a_row.getD p 0) (b_f32.getD (p * n + j) 0)

/-- Total form of the sequential accumulation loop. -/
def spec_acc_loop (a_row b_f32 : List Nat) (n j : Nat) :
    Nat → Nat → Nat → Nat
  | 0, _, acc => acc
  | cnt + 1, p, acc =>
    spec_acc_loop a_row b_f32 n j cnt (p + 1)
      (f32add acc (spec_mac_val a_row b_f32 n j p))

/-- Specification-side output entry `C[i][j]`: the fp32 left-to-right sum
over `p < k` of `A_f32[i*k+p] * B_f32[p*n+j]`, starting from `+0.0`. -/
def spec_entry (a_f32 b_f32 : List Nat) (n k i j : Nat) : Nat :=
  (List.range k).foldl
    (fun acc p => f32add acc
      (f32mul (a_f32.getD (i * k + p) 0) (b_f32.getD (p * n + j) 0))) 0

/-- The specification-side row `i` of the output, in fp32. -/
def spec_row (a_f32 b_f32 : List Nat) (n k i : Nat) : List Nat :=
  (List.range n).map fun j => spec_entry a_f32 b_f32 n k i j

/-- The specification-side result bytes: the m·n fp32 entries of
`spec_entry` in row-major order, narrowed to fp16 and serialized as
little-endian byte pairs. -/
def gemm_spec_bytes (a b : List Nat) (m n k : Nat) : List Nat :=
  let a_f32 := (read_fp16_le_slice a).map f16_to_f32
  let b_f32 := (read_fp16_le_slice b).map f16_to_f32
  flatBytes ((((List.range m).map fun i =>
    spec_row a_f32 b_f32 n k i).flatten).map f32_to_f16)

/-- Balanced-range conjunction of a decidable check, with logarithmic
recursion depth so the kernel can evaluate it over large ranges. -/
def checkRange (p : Nat → Bool) : Nat → Nat → Nat → Bool
  | 0, lo, cnt => cnt = 0 || (cnt = 1 && p lo)
  | d + 1, lo, cnt =>
    if cnt ≤ 1 then (cnt = 0 || (cnt = 1 && p lo))
    else checkRange p d lo (cnt / 2) &&
      checkRange p d (lo + cnt / 2) (cnt - cnt / 2)

/-- The round-trip check for one fp16 bit pattern of each sign with the
given low 15 bits. -/
def rtPair (v : Nat) : Bool :=
  (f32_to_f16 (f16_to_f32 v) == v) &&
    (f32_to_f16 (f16_to_f32 (2 ^ 15 + v)) == 2 ^ 15 + v)

/-- The k×k fp16 identity matrix, row-major, as bit patterns:
`0x3C00` (one) on the diagonal, `0` elsewhere. -/
def identity16 (k : Nat) : List Nat :=
  (List.range (k * k)).map fun idx => if idx / k = idx % k then 0x3C00 else 0

/-- Replace an fp16 negative zero (`0x8000`) by positive zero; every other
bit pattern is unchanged.  Multiplication by an identity matrix preserves
entries exactly up to this normalization (a `-0.0` row/column entry becomes
`-0.0 * 1.0 + 0.0 + ⋯ = +0.0` under IEEE addition of signed zeros). -/
def normalizeSignedZero16 (u : Nat) : Nat := if u % 2 ^ 15 = 0 then 0 else u

/-- Model of `gemm_fp16_acc32`.  `alloc` is the allocation oracle for
`OwnedBinary::new`; the result is `none` exactly on panicking paths
(out-of-bounds access, rayon's assertion that the chunk size `n` is
nonzero, or the capacity-overflow panic of `vec![0f32; mn]` when the
accumulator's byte size `4 * mn` exceeds `isize::MAX`). -/
def gemm_fp16_acc32 (alloc : Nat → Bool) (a b : List Nat) (m n k : Nat) :
    Option NifTerm :=
  let expected_a := ((checked_mul m k).bind fun x => checked_mul x 2).getD
    (USIZE - 1)
  let expected_b := ((checked_mul k n).bind fun x => checked_mul x 2).getD
    (USIZE - 1)
  if a.length ≠ expected_a ∨ b.length ≠ expected_b then
    pure (errorTerm "badarg")
  else
    let a_half := read_fp16_le_slice a
    let b_half := read_fp16_le_slice b
    let a_f32 := a_half.map f16_to_f32
    let b_f32 := b_half.map f16_to_f32
    match checked_mul m n with
    | none => pure (errorTerm "overflow")
    | some mn =>
      if ISIZE_MAX < 4 * mn then none
      else
      let c0 := List.replicate mn 0
      if n = 0 then none
      else do
        let chunks ← rows_compute a_f32 b_f32 n k (chunksOf c0 n) 0
        let c_f32 := chunks.flatten
        let c_half := c_f32.map f32_to_f16
        let out_len := (checked_mul mn 2).getD (USIZE - 1)
        if alloc out_len then do
          let out ← write_fp16_le_slice (List.replicate out_len 0) c_half 0
          pure (NifTerm.okBin out)
        else pure (errorTerm "alloc_failed")

/-! ### The micro-tiled loop is the naive sequential accumulation -/

theorem acc_rem_loop_succ (a_row b_f32 : List Nat) (n j c p acc : Nat) :
    acc_rem_loop a_row b_f32 n j (c + 1) p acc =
      (mac a_row b_f32 n j p).bind fun t =>
        acc_rem_loop a_row b_f32 n j c (p + 1) (f32add acc t) := rfl

theorem acc_microtile_loop_succ (a_row b_f32 : List Nat) (n j k c p acc : Nat) :
    acc_microtile_loop a_row b_f32 n j k (c + 1) p acc =
      (mac a_row b_f32 n j (p + 0)).bind fun t0 =>
      (mac a_row b_f32 n j (p + 1)).bind fun t1 =>
      (mac a_row b_f32 n j (p + 2)).bind fun t2 =>
      (mac a_row b_f32 n j (p + 3)).bind fun t3 =>
      (mac a_row b_f32 n j (p + 4)).bind fun t4 =>
      (mac a_row b_f32 n j (p + 5)).bind fun t5 =>
      (mac a_row b_f32 n j (p + 6)).bind fun t6 =>
      (mac a_row b_f32 n j (p + 7)).bind fun t7 =>
        acc_microtile_loop a_row b_f32 n j k c (p + 8)
          (f32add (f32add (f32add (f32add (f32add (f32add (f32add
            (f32add acc t0) t1) t2) t3) t4) t5) t6) t7) := rfl

theorem acc_rem_loop_eight (a_row b_f32 : List Nat) (n j : Nat)
    (c p acc : Nat) :
    acc_rem_loop a_row b_f32 n j (c + 8) p acc =
      (mac a_row b_f32 n j (p + 0)).bind fun t0 =>
      (mac a_row b_f32 n j (p + 1)).bind fun t1 =>
      (mac a_row b_f32 n j (p + 2)).bind fun t2 =>
      (mac a_row b_f32 n j (p + 3)).bind fun t3 =>
      (mac a_row b_f32 n j (p + 4)).bind fun t4 =>
      (mac a_row b_f32 n j (p + 5)).bind fun t5 =>
      (mac a_row b_f32 n j (p + 6)).bind fun t6 =>
      (mac a_row b_f32 n j (p + 7)).bind fun t7 =>
        acc_rem_loop a_row b_f32 n j c (p + 8)
          (f32add (f32add (f32add (f32add (f32add (f32add (f32add
            (f32add acc t0) t1) t2) t3) t4) t5) t6) t7) := by
  simp only [Nat.add_zero]
  rw [show c + 8 = c + 7 + 1 from by omega, acc_rem_loop_succ]
  cases h0 : mac a_row b_f32 n j p <;>
    simp only [h0, Option.none_bind, Option.some_bind]
  rw [show c + 7 = c + 6 + 1 from by omega, acc_rem_loop_succ]
  cases h1 : mac a_row b_f32 n j (p + 1) <;>
    simp only [h1, Option.none_bind, Option.some_bind]
  rw [show p + 1 + 1 = p + 2 from by omega,
    show c + 6 = c + 5 + 1 from by omega, acc_rem_loop_succ]
  cases h2 : mac a_row b_f32 n j (p + 2) <;>
    simp only [h2, Option.none_bind, Option.some_bind]
  rw [show p + 2 + 1 = p + 3 from by omega,
    show c + 5 = c + 4 + 1 from by omega, acc_rem_loop_succ]
  cases h3 : mac a_row b_f32 n j (p + 3) <;>
    simp only [h3, Option.none_bind, Option.some_bind]
  rw [show p + 3 + 1 = p + 4 from by omega,
    show c + 4 = c + 3 + 1 from by omega, acc_rem_loop_succ]
  cases h4 : mac a_row b_f32 n j (p + 4) <;>
    simp only [h4, Option.none_bind, Option.some_bind]
  rw [show p + 4 + 1 = p + 5 from by omega,
    show c + 3 = c + 2 + 1 from by omega, acc_rem_loop_succ]
  cases h5 : mac a_row b_f32 n j (p + 5) <;>
    simp only [h5, Option.none_bind, Option.some_bind]
  rw [show p + 5 + 1 = p + 6 from by omega,
    show c + 2 = c + 1 + 1 from by omega, acc_rem_loop_succ]
  cases h6 : mac a_row b_f32 n j (p + 6) <;>
    simp only [h6, Option.none_bind, Option.some_bind]
  rw [show p + 6 + 1 = p + 7 from by omega,
    show c + 1 = c + 0 + 1 from by omega, acc_rem_loop_succ]

theorem acc_microtile_loop_eq_rem (a_row b_f32 : List Nat) (n j k : Nat) :
    ∀ g p acc, g = (k - p) / 8 →
      acc_microtile_loop a_row b_f32 n j k g p acc =
        acc_rem_loop a_row b_f32 n j (k - p) p acc := by
  intro g
  induction g with
  | zero => intro p acc _; simp only [acc_microtile_loop, acc_rem]
  | succ c ih =>
    intro p acc hg
    have h8 : k - p = (k - (p + 8)) + 8 := by omega
    rw [acc_microtile_loop_succ, h8, acc_rem_loop_eight]
    have hc : c = (k - (p + 8)) / 8 := by omega
    cases h0 : mac a_row b_f32 n j (p + 0) <;>
      simp only [h0, Option.none_bind, Option.some_bind]
    cases h1 : mac a_row b_f32 n j (p + 1) <;>
      simp only [h1, Option.none_bind, Option.some_bind]
    cases h2 : mac a_row b_f32 n j (p + 2) <;>
      simp only [h2, Option.none_bind, Option.some_bind]
    cases h3 : mac a_row b_f32 n j (p + 3) <;>
      simp only [h3, Option.none_bind, Option.some_bind]
    cases h4 : mac a_row b_f32 n j (p + 4) <;>
      simp only [h4, Option.none_bind, Option.some_bind]
    cases h5 : mac a_row b_f32 n j (p + 5) <;>
      simp only [h5, Option.none_bind, Option.some_bind]
    cases h6 : mac a_row b_f32 n j (p + 6) <;>
      simp only [h6, Option.none_bind, Option.some_bind]
    cases h7 : mac a_row b_f32 n j (p + 7) <;>
      simp only [h7, Option.none_bind, Option.some_bind]
    exact ih (p + 8) _ hc

/-- The micro-tiled inner loop entered at `p` agrees with the plain
element-by-element loop entered at `p`, for every accumulator value. -/
theorem acc_microtile_eq_acc_rem (a_row b_f32 : List Nat) (n j k p acc : Nat) :
    acc_microtile a_row b_f32 n j k p acc =
      acc_rem a_row b_f32 n j k p acc := by
  rw [acc_microtile, acc_rem]
  exact acc_microtile_loop_eq_rem a_row b_f32 n j k _ p acc rfl

theorem acc_rem_loop_eq_naive (a_row b_f32 : List Nat) (n j : Nat) :
    ∀ cnt p acc, acc_rem_loop a_row b_f32 n j cnt p acc =
      naive_acc a_row b_f32 n j cnt p acc := by
  intro cnt
  induction cnt with
  | zero => intro p acc; rfl
  | succ c ih =>
    intro p acc
    rw [acc_rem_loop_succ]
    cases h : mac a_row b_f32 n j p with
    | none => simp only [naive_acc, h, Option.bind_eq_bind, Option.none_bind]
    | some t =>
      simp only [naive_acc, h, Option.bind_eq_bind, Option.some_bind]
      exact ih (p + 1) (f32add acc t)

/-- C10: the micro-tiled inner loop (groups of eight plus an
element-by-element remainder) returns, for every row slice, B matrix, and
contraction length `k`, exactly the same 32-bit accumulator as the naive
sequential loop that adds the products for `p = 0, ..., k-1` in order
starting from `0.0`, because it performs the same fp32 additions in the
same order. -/
theorem microtile_is_naive_accumulation (a_row b_f32 : List Nat)
    (n j k : Nat) :
    acc_microtile a_row b_f32 n j k 0 0 = naive_acc a_row b_f32 n j k 0 0 := by
  rw [acc_microtile_eq_acc_rem, acc_rem]
  simpa using acc_rem_loop_eq_naive a_row b_f32 n j k 0 0

/-! ### Concrete scenarios -/

/-- C8: with m = 1, n = 1 and A, B filled with fp16 ones (`0x3C00`, bytes
`[0x00, 0x3C]`), the kernel returns exactly `[16.0]` (fp16 `0x4C00`, bytes
`[0x00, 0x4C]`) for k = 16 — two full unrolled groups of eight, no
remainder — and exactly `[9.0]` (fp16 `0x4880`, bytes `[0x80, 0x48]`) for
k = 9 — one full group of eight plus a remainder of one. -/
theorem gemm_ones_k16_and_k9 :
    gemm_fp16_acc32 (fun _ => true)
        (List.flatten (List.replicate 16 [0x00, 0x3C]))
        (List.flatten (List.replicate 16 [0x00, 0x3C])) 1 1 16 =
      some (NifTerm.okBin [0x00, 0x4C]) ∧
    gemm_fp16_acc32 (fun _ => true)
        (List.flatten (List.replicate 9 [0x00, 0x3C]))
        (List.flatten (List.replicate 9 [0x00, 0x3C])) 1 1 9 =
      some (NifTerm.okBin [0x80, 0x48]) := by
  constructor <;> decide

/-- C4 (code bug): with n = 0 and buffers that pass shape validation
(here m = 1, n = 0, k = 3, A of 6 bytes, B empty), the kernel does not
return a discriminated result value: it panics, because
`par_chunks_mut(n)` asserts that the chunk size is nonzero.  The model
value `none` is the panicking execution. -/
theorem gemm_zero_n_panics :
    gemm_fp16_acc32 (fun _ => true) [0, 0, 0, 0, 0, 0] [] 1 0 3 = none := by
  decide

/-- C5 (code bug): the degenerate shape m = 0, n = 0, k = 0 with empty
buffers does not produce the well-formed empty output buffer the
specification promises: the kernel panics in `par_chunks_mut(0)`
(modelled by `none`). -/
theorem gemm_degenerate_zero_n_panics :
    gemm_fp16_acc32 (fun _ => true) [] [] 0 0 0 = none := by
  decide

/-! ### Shape validation (BadArgument) -/

/-- The kernel's two-step saturating computation of the expected length
agrees with the spec-side single-product description. -/
theorem expected_len_eq (r c : Nat) :
    ((checked_mul r c).bind fun x => checked_mul x 2).getD (USIZE - 1) =
      spec_expected_len r c := by
  unfold checked_mul spec_expected_len
  by_cases h1 : r * c < USIZE
  · by_cases h2 : r * c * 2 < USIZE
    · simp [h1, h2]
    · simp [h1, h2]
  · have h2 : ¬ r * c * 2 < USIZE := by
      have : r * c ≤ r * c * 2 := by omega
      omega
    simp [h1, h2]

/-- C2: the kernel returns the BadArgument outcome if and only if the byte
length of `a` differs from `m·k·2` or that of `b` differs from `k·n·2`
(an expected length whose computation overflows `usize` being treated as
the maximal value).  The result does not depend on the allocation oracle
or on the buffer contents, reflecting that the check precedes any
decoding or allocation. -/
theorem gemm_badarg_iff (alloc : Nat → Bool) (a b : List Nat) (m n k : Nat) :
    gemm_fp16_acc32 alloc a b m n k = some NifTerm.errBadarg ↔
      (a.length ≠ spec_expected_len m k ∨ b.length ≠ spec_expected_len k n) := by
  constructor
  · intro h
    by_contra hn
    push_neg at hn
    rw [gemm_fp16_acc32] at h
    rw [expected_len_eq, expected_len_eq] at h
    simp only [hn.1, hn.2, ne_eq, not_true_eq_false, or_self, if_false] at h
    revert h
    cases checked_mul m n with
    | none => simp [errorTerm]
    | some mn =>
      simp only []
      by_cases hcap : ISIZE_MAX < 4 * mn
      · simp [hcap]
      · simp only [hcap, if_false]
        by_cases hn0 : n = 0
        · simp [hn0]
        · simp only [hn0, if_false]
          cases rows_compute (List.map f16_to_f32 (read_fp16_le_slice a))
              (List.map f16_to_f32 (read_fp16_le_slice b)) n k
              (chunksOf (List.replicate mn 0) n) 0 with
          | none => simp
          | some chunks =>
            simp only [Option.bind_eq_bind, Option.some_bind]
            by_cases ha : alloc ((checked_mul mn 2).getD (USIZE - 1)) = true
            · simp only [ha, if_true]
              cases write_fp16_le_slice
                  (List.replicate ((checked_mul mn 2).getD (USIZE - 1)) 0)
                  (List.map f32_to_f16 chunks.flatten) 0 with
              | none => simp
              | some out => simp
            · simp only [Bool.not_eq_true] at ha
              simp [ha, errorTerm]
  · intro h
    rw [gemm_fp16_acc32, expected_len_eq, expected_len_eq]
    rcases h with h | h <;> simp [h, errorTerm]

/-- Witness exercising `gemm_badarg_iff` in both directions on concrete
inputs: a 2-byte A buffer with m = n = k = 1 matches the expected lengths
(so the result is not BadArgument), while an empty A buffer does not. -/
theorem gemm_badarg_iff_witness :
    gemm_fp16_acc32 (fun _ => true) [] [0, 0] 1 1 1 =
      some NifTerm.errBadarg ∧
    ¬ gemm_fp16_acc32 (fun _ => true) [0, 0] [0, 0] 1 1 1 =
      some NifTerm.errBadarg := by
  constructor
  · exact (gemm_badarg_iff (fun _ => true) [] [0, 0] 1 1 1).mpr (by decide)
  · intro h
    have := (gemm_badarg_iff (fun _ => true) [0, 0] [0, 0] 1 1 1).mp h
    revert this
    decide

/-! ### Total (specification-side) value of the accumulation -/

theorem spec_acc_loop_eq_foldl (a_row b_f32 : List Nat) (n j : Nat) :
    ∀ cnt p acc, spec_acc_loop a_row b_f32 n j cnt p acc =
      (List.range' p cnt).foldl
        (fun acc q => f32add acc (spec_mac_val a_row b_f32 n j q)) acc := by
  intro cnt
  induction cnt with
  | zero => intro p acc; rfl
  | succ c ih =>
    intro p acc
    rw [List.range'_succ, List.foldl_cons, spec_acc_loop, ih]

/-- If every position the loop will read is in bounds, the checked loop
succeeds with the total value. -/
theorem acc_rem_loop_succeeds (a_row b_f32 : List Nat) (n j : Nat) :
    ∀ cnt p acc, p + cnt ≤ a_row.length →
      (∀ q, q < p + cnt → q * n + j < b_f32.length) →
      acc_rem_loop a_row b_f32 n j cnt p acc =
        some (spec_acc_loop a_row b_f32 n j cnt p acc) := by
  intro cnt
  induction cnt with
  | zero => intro p acc _ _; rfl
  | succ c ih =>
    intro p acc hA hB
    rw [acc_rem_loop_succ]
    have hx : a_row.get? p = some (a_row.getD p 0) := by
      rw [List.getD_eq_getElem?_getD, ← List.get?_eq_getElem?]
      cases hx : a_row.get? p with
      | none =>
        rw [List.get?_eq_none] at hx
        omega
      | some x => rfl
    have hy : b_f32.get? (p * n + j) = some (b_f32.getD (p * n + j) 0) := by
      rw [List.getD_eq_getElem?_getD, ← List.get?_eq_getElem?]
      cases hy : b_f32.get? (p * n + j) with
      | none =>
        rw [List.get?_eq_none] at hy
        have := hB p (by omega)
        omega
      | some y => rfl
    rw [show mac a_row b_f32 n j p = some (spec_mac_val a_row b_f32 n j p) by
      unfold mac spec_mac_val; rw [hx, hy]; rfl]
    rw [Option.some_bind, spec_acc_loop]
    exact ih (p + 1) _ (by omega) (fun q hq => hB q (by omega))

theorem acc_microtile_succeeds (a_row b_f32 : List Nat) (n j k : Nat)
    (hA : k ≤ a_row.length) (hB : ∀ q, q < k → q * n + j < b_f32.length) :
    acc_microtile a_row b_f32 n j k 0 0 =
      some (spec_acc_loop a_row b_f32 n j k 0 0) := by
  rw [acc_microtile_eq_acc_rem, acc_rem, Nat.sub_zero]
  exact acc_rem_loop_succeeds a_row b_f32 n j k 0 0 (by omega)
    (fun q hq => hB q (by omega))

/-! ### Column and row loops -/

theorem cols_loop_succeeds (a_row b_f32 : List Nat) (n k : Nat)
    (hA : k ≤ a_row.length) (hB : k * n ≤ b_f32.length) :
    ∀ cnt j, j + cnt ≤ n →
      cols_loop a_row b_f32 n k cnt j = some ((List.range' j cnt).map
        (fun jj => spec_acc_loop a_row b_f32 n jj k 0 0)) := by
  intro cnt
  induction cnt with
  | zero => intro j _; rfl
  | succ c ih =>
    intro j hj
    rw [cols_loop, acc_microtile_succeeds a_row b_f32 n j k hA ?bnd]
    case bnd =>
      intro q hq
      have h1 : q + 1 ≤ k := by omega
      have h2 : (q + 1) * n ≤ k * n := Nat.mul_le_mul_right n h1
      rw [Nat.succ_mul] at h2
      omega
    rw [ih (j + 1) (by omega)]
    simp only [Option.bind_eq_bind, Option.some_bind, Option.pure_def]
    rw [List.range'_succ, List.map_cons]

/-- Reading inside a successful slice is reading the base list at the
offset position. -/
theorem sliceRange_getD (v : List Nat) (lo hi : Nat) (a_row : List Nat)
    (h : sliceRange v lo hi = some a_row) (q : Nat) (hq : lo + q < hi) :
    a_row.getD q 0 = v.getD (lo + q) 0 := by
  rw [sliceRange] at h
  split at h
  · cases h
    rename_i hcond
    rw [List.getD_eq_getElem?_getD, List.getD_eq_getElem?_getD,
      List.getElem?_drop, List.getElem?_take_of_lt (by omega)]
  · cases h

theorem sliceRange_length (v : List Nat) (lo hi : Nat) (a_row : List Nat)
    (h : sliceRange v lo hi = some a_row) :
    a_row.length = hi - lo := by
  rw [sliceRange] at h
  split at h
  · cases h
    rename_i hcond
    simp only [List.length_drop, List.length_take]
    omega
  · cases h

/-- The inner-loop value over a successful row slice is the spec entry over
the full decoded A array. -/
theorem spec_acc_slice_eq_entry (a_f32 b_f32 : List Nat) (n k i : Nat)
    (a_row : List Nat)
    (h : sliceRange a_f32 (i * k) ((i + 1) * k) = some a_row) (j : Nat) :
    spec_acc_loop a_row b_f32 n j k 0 0 = spec_entry a_f32 b_f32 n k i j := by
  rw [spec_acc_loop_eq_foldl, spec_entry, List.range_eq_range']
  refine List.foldl_ext _ _ 0 (fun acc q hq => ?_)
  have hqk : q < k := by
    have := List.mem_range'_1.mp hq
    omega
  rw [spec_mac_val, sliceRange_getD a_f32 (i * k) ((i + 1) * k) a_row h q
    (by rw [Nat.succ_mul]; omega)]

theorem rows_compute_replicate_succeeds (a_f32 b_f32 : List Nat) (n k : Nat)
    (hB : k * n ≤ b_f32.length) :
    ∀ cnt i, (i + cnt) * k ≤ a_f32.length →
      rows_compute a_f32 b_f32 n k
          (List.replicate cnt (List.replicate n 0)) i =
        some ((List.range' i cnt).map fun ii =>
          spec_row a_f32 b_f32 n k ii) := by
  intro cnt
  induction cnt with
  | zero => intro i _; rfl
  | succ c ih =>
    intro i hA
    rw [List.replicate_succ, rows_compute]
    have hle1 : i * k ≤ (i + 1) * k := Nat.mul_le_mul_right k (by omega)
    have hle2 : (i + 1) * k ≤ a_f32.length := by
      calc (i + 1) * k ≤ (i + (c + 1)) * k := Nat.mul_le_mul_right k (by omega)
        _ ≤ a_f32.length := hA
    have hs : sliceRange a_f32 (i * k) ((i + 1) * k) =
        some ((a_f32.take ((i + 1) * k)).drop (i * k)) := by
      rw [sliceRange, if_pos ⟨hle1, hle2⟩]
    rw [hs, Option.bind_eq_bind, Option.some_bind, row_chunk_body]
    simp only [List.length_replicate, le_refl, if_true]
    have hrowlen : ((a_f32.take ((i + 1) * k)).drop (i * k)).length = k := by
      have := sliceRange_length a_f32 (i * k) ((i + 1) * k) _ hs
      rw [this, Nat.succ_mul]
      omega
    have hcols : cols_compute ((a_f32.take ((i + 1) * k)).drop (i * k))
        b_f32 n k = some ((List.range' 0 n).map
          (fun jj => spec_acc_loop ((a_f32.take ((i + 1) * k)).drop (i * k))
            b_f32 n jj k 0 0)) := by
      rw [cols_compute]
      exact cols_loop_succeeds _ b_f32 n k (by omega) hB n 0 (by omega)
    rw [hcols]
    rw [Option.bind_eq_bind, Option.some_bind,
      ih (i + 1) (by
        calc (i + 1 + c) * k = (i + (c + 1)) * k := by ring_nf
          _ ≤ a_f32.length := hA)]
    simp only [Option.bind_eq_bind, Option.some_bind, Option.pure_def,
      Option.some_inj]
    rw [List.range'_succ, List.map_cons]
    congr 1
    rw [List.drop_replicate, Nat.sub_self, List.replicate_zero,
      List.append_nil, spec_row, List.range_eq_range']
    exact List.map_congr_left fun jj _ =>
      spec_acc_slice_eq_entry a_f32 b_f32 n k i _ hs jj

/-! ### Chunking and output writing -/

theorem chunksOf_loop_replicate (x n : Nat) :
    ∀ m, chunksOf_loop n m (List.replicate (m * n) x) =
      List.replicate m (List.replicate n x) := by
  intro m
  induction m with
  | zero => rfl
  | succ c ihc =>
    rw [chunksOf_loop, List.take_replicate, List.drop_replicate,
      show min n ((c + 1) * n) = n from by
        have : n ≤ (c + 1) * n := Nat.le_mul_of_pos_left n (by omega)
        omega,
      show (c + 1) * n - n = c * n from by rw [Nat.succ_mul]; omega,
      ihc, List.replicate_succ]

theorem chunksOf_replicate (x n m : Nat) (hn : 0 < n) :
    chunksOf (List.replicate (m * n) x) n =
      List.replicate m (List.replicate n x) := by
  rw [chunksOf, List.length_replicate,
    show (m * n + n - 1) / n = m from by
      rw [show m * n + n - 1 = (n - 1) + n * m from by ring_nf; omega,
        Nat.add_mul_div_left _ _ hn, Nat.div_eq_of_lt (by omega)]
      omega]
  exact chunksOf_loop_replicate x n m

theorem list_set_append_len (pre l : List Nat) (t v : Nat) :
    (pre ++ l).set (pre.length + t) v = pre ++ l.set t v := by
  rw [List.set_append_right _ _ (by omega : pre.length ≤ pre.length + t),
    Nat.add_sub_cancel_left]

theorem flatBytes_length : ∀ l : List Nat, (flatBytes l).length = 2 * l.length
  | [] => rfl
  | h :: rest => by
    rw [flatBytes, List.length_cons, List.length_cons, flatBytes_length rest,
      List.length_cons]
    omega

/-- A successful write into a buffer that continues exactly to the end of
the buffer overwrites the tail with the serialized data. -/
theorem write_fp16_le_slice_append :
    ∀ (data pre suf : List Nat) (i : Nat), pre.length = 2 * i →
      suf.length = 2 * data.length →
      write_fp16_le_slice (pre ++ suf) data i = some (pre ++ flatBytes data) := by
  intro data
  induction data with
  | nil =>
    intro pre suf i _ hsuf
    have hs0 : suf = [] := List.length_eq_zero.mp (by simpa using hsuf)
    subst hs0
    simp [write_fp16_le_slice, flatBytes]
  | cons h rest ih =>
    intro pre suf i hpre hsuf
    match suf with
    | s0 :: s1 :: srest =>
      rw [write_fp16_le_slice]
      have hst0 : store (pre ++ s0 :: s1 :: srest) (i * 2) (h % 256) =
          some (pre ++ h % 256 :: s1 :: srest) := by
        rw [store, if_pos (by
          rw [List.length_append, hpre]
          simp only [List.length_cons]
          omega)]
        rw [show i * 2 = pre.length + 0 from by omega, list_set_append_len]
        rfl
      have hst1 : store (pre ++ h % 256 :: s1 :: srest) (i * 2 + 1)
          (h / 256 % 256) =
          some (pre ++ h % 256 :: h / 256 % 256 :: srest) := by
        rw [store, if_pos (by
          rw [List.length_append, hpre]
          simp only [List.length_cons]
          omega)]
        rw [show i * 2 + 1 = pre.length + 1 from by omega, list_set_append_len]
        rfl
      rw [hst0, Option.bind_eq_bind, Option.some_bind, hst1,
        Option.some_bind]
      have := ih (pre ++ [h % 256, h / 256 % 256]) srest (i + 1)
        (by rw [List.length_append, hpre]; simp; omega)
        (by
          have : (s0 :: s1 :: srest).length = 2 * (rest.length + 1) := by
            simpa using hsuf
          simp only [List.length_cons] at this
          omega)
      simp only [List.append_assoc, List.cons_append, List.nil_append] at this
      rw [flatBytes]
      exact this
    | [] =>
      exfalso
      simp only [List.length_nil, List.length_cons] at hsuf
      omega
    | [s0] =>
      exfalso
      simp only [List.length_cons, List.length_nil] at hsuf
      omega

/-- A successful write of nonempty data implies the buffer was long enough
for every byte written. -/
theorem write_fp16_le_slice_some_bound :
    ∀ (data buf : List Nat) (i : Nat) (out : List Nat), data ≠ [] →
      write_fp16_le_slice buf data i = some out →
      2 * i + 2 * data.length ≤ buf.length := by
  intro data
  induction data with
  | nil => intro buf i out hne _; exact absurd rfl hne
  | cons h rest ih =>
    intro buf i out _ hw
    rw [write_fp16_le_slice] at hw
    cases hst0 : store buf (i * 2) (h % 256) with
    | none => rw [hst0] at hw; cases hw
    | some buf1 =>
      rw [hst0, Option.bind_eq_bind, Option.some_bind] at hw
      cases hst1 : store buf1 (i * 2 + 1) (h / 256 % 256) with
      | none => rw [hst1] at hw; cases hw
      | some buf2 =>
        rw [hst1, Option.some_bind] at hw
        have hlen1 : buf1.length = buf.length := by
          rw [store] at hst0
          split at hst0
          · cases hst0; exact List.length_set buf _ _
          · cases hst0
        have hlen2 : buf2.length = buf1.length := by
          rw [store] at hst1
          split at hst1
          · cases hst1; exact List.length_set buf1 _ _
          · cases hst1
        have hidx : i * 2 + 1 < buf1.length := by
          rw [store] at hst1
          split at hst1
          · assumption
          · cases hst1
        rcases List.eq_nil_or_concat rest with hr | _
        · subst hr
          cases hw
          simp only [List.length_cons, List.length_nil]
          omega
        · have hb := ih buf2 (i + 1) out (by
            rename_i hx
            rcases hx with ⟨ys, y, hy⟩
            subst hy
            simp) hw
          rw [hlen2, hlen1] at hb
          simp only [List.length_cons]
          omega

theorem read_fp16_le_slice_length :
    ∀ a : List Nat, (read_fp16_le_slice a).length = a.length / 2
  | [] => rfl
  | [_] => by simp [read_fp16_le_slice]
  | b0 :: b1 :: rest => by
    rw [read_fp16_le_slice, List.length_cons, read_fp16_le_slice_length rest]
    simp only [List.length_cons]
    omega

theorem flatten_const_rows_length :
    ∀ (l : List (List Nat)) (n : Nat), (∀ r ∈ l, r.length = n) →
      l.flatten.length = l.length * n
  | [], _, _ => by simp
  | r :: rest, n, h => by
    rw [List.flatten_cons, List.length_append, List.length_cons,
      flatten_const_rows_length rest n (fun r hr => h r (by simp [hr])),
      h r (by simp)]
    ring

/-! ### The main success path -/

theorem spec_row_length (a_f32 b_f32 : List Nat) (n k i : Nat) :
    (spec_row a_f32 b_f32 n k i).length = n := by
  rw [spec_row, List.length_map, List.length_range]

/-- Evaluation of the kernel on every call whose shapes and buffers are
consistent and in range (in particular the fp32 accumulator's `4·m·n`
bytes stay within `isize::MAX`, so no capacity-overflow panic): the call
reaches the allocation of the output buffer and, if that succeeds
(and the output byte count did not saturate), returns the specification
bytes. -/
theorem gemm_run (alloc : Nat → Bool) (a b : List Nat) (m n k : Nat)
    (hn : 0 < n)
    (ha : a.length = m * k * 2) (hsa : m * k * 2 < USIZE)
    (hb : b.length = k * n * 2) (hsb : k * n * 2 < USIZE)
    (hmn : m * n < USIZE) (hcap : 4 * (m * n) ≤ ISIZE_MAX) :
    gemm_fp16_acc32 alloc a b m n k =
      if alloc (if m * n * 2 < USIZE then m * n * 2 else USIZE - 1) then
        (if m * n * 2 < USIZE then
          some (NifTerm.okBin (gemm_spec_bytes a b m n k))
        else none)
      else some NifTerm.errAllocFailed := by
  have hval : ¬ (a.length ≠
      ((checked_mul m k).bind fun x => checked_mul x 2).getD (USIZE - 1) ∨
      b.length ≠
      ((checked_mul k n).bind fun x => checked_mul x 2).getD (USIZE - 1)) := by
    rw [expected_len_eq, expected_len_eq, spec_expected_len, spec_expected_len,
      if_pos hsa, if_pos hsb]
    push_neg
    exact ⟨ha, hb⟩
  rw [gemm_fp16_acc32, if_neg hval,
    show checked_mul m n = some (m * n) from by rw [checked_mul, if_pos hmn]]
  dsimp only
  rw [if_neg (by omega : ¬ ISIZE_MAX < 4 * (m * n))]
  rw [if_neg (by omega : ¬ n = 0)]
  have haF : ((read_fp16_le_slice a).map f16_to_f32).length = m * k := by
    rw [List.length_map, read_fp16_le_slice_length, ha]
    omega
  have hbF : ((read_fp16_le_slice b).map f16_to_f32).length = k * n := by
    rw [List.length_map, read_fp16_le_slice_length, hb]
    omega
  rw [chunksOf_replicate 0 n m hn,
    rows_compute_replicate_succeeds _ _ n k (by omega) m 0
      (by rw [Nat.zero_add]; omega)]
  rw [Option.bind_eq_bind, Option.some_bind]
  have hflatlen : (((List.range' 0 m).map fun ii =>
      spec_row ((read_fp16_le_slice a).map f16_to_f32)
        ((read_fp16_le_slice b).map f16_to_f32) n k ii).flatten).length =
      m * n := by
    rw [flatten_const_rows_length _ n (by
      intro r hr
      rcases List.mem_map.mp hr with ⟨ii, _, hii⟩
      rw [← hii, spec_row_length]), List.length_map, List.length_range']
  have hout : (checked_mul (m * n) 2).getD (USIZE - 1) =
      if m * n * 2 < USIZE then m * n * 2 else USIZE - 1 := by
    rw [checked_mul]
    split <;> simp_all
  rw [hout]
  by_cases halloc : alloc (if m * n * 2 < USIZE then m * n * 2 else USIZE - 1)
  · rw [if_pos halloc, if_pos halloc]
    by_cases hsat : m * n * 2 < USIZE
    · rw [if_pos hsat, if_pos hsat]
      have hw := write_fp16_le_slice_append
        ((((List.range' 0 m).map fun ii =>
          spec_row ((read_fp16_le_slice a).map f16_to_f32)
            ((read_fp16_le_slice b).map f16_to_f32) n k ii).flatten).map
              f32_to_f16)
        [] (List.replicate (m * n * 2) 0) 0 rfl
        (by rw [List.length_replicate, List.length_map, hflatlen]; omega)
      rw [List.nil_append] at hw
      rw [hw]
      simp only [Option.bind_eq_bind, Option.some_bind, Option.pure_def,
        Option.some_inj, List.nil_append]
      rw [gemm_spec_bytes]
      simp only [List.range_eq_range']
    · rw [if_neg hsat, if_neg hsat]
      cases hw : write_fp16_le_slice (List.replicate (USIZE - 1) 0)
          ((((List.range' 0 m).map fun ii =>
            spec_row ((read_fp16_le_slice a).map f16_to_f32)
              ((read_fp16_le_slice b).map f16_to_f32) n k ii).flatten).map
                f32_to_f16) 0 with
      | none => rfl
      | some out =>
        exfalso
        have hne : (((List.range' 0 m).map fun ii =>
            spec_row ((read_fp16_le_slice a).map f16_to_f32)
              ((read_fp16_le_slice b).map f16_to_f32) n k ii).flatten).map
                f32_to_f16 ≠ [] := by
          intro hnil
          have := congrArg List.length hnil
          rw [List.length_map, hflatlen] at this
          simp only [List.length_nil] at this
          omega
        have hbound := write_fp16_le_slice_some_bound _ _ 0 out hne hw
        rw [List.length_replicate, List.length_map, hflatlen] at hbound
        omega
  · rw [if_neg halloc, if_neg halloc]
    rfl

/-- C3 (code bug): when m·n itself overflows `usize` the kernel does
return the Overflow outcome before any allocation (second conjunct, with
the allocation oracle universally quantified), but the claim's other
overflow case is never reported: with m = 2^63, n = 1, k = 0 (both input
buffers rightly empty, shape validation passed, m·n = 2^63 representable,
(m·n)·2 overflowing), the program panics with a capacity overflow at
`vec![0f32; mn]` — the fp32 accumulator needs 4·m·n = 2^65 bytes, above
`isize::MAX` — before the output byte count is even computed, for every
allocation state (modelled by `none`). -/
theorem gemm_outlen_overflow_panics :
    (∀ alloc : Nat → Bool,
      gemm_fp16_acc32 alloc [] [] (2 ^ 63) 1 0 = none) ∧
    (∀ alloc : Nat → Bool,
      gemm_fp16_acc32 alloc [] [] (2 ^ 62) 4 0 =
        some NifTerm.errOverflow) := by
  constructor
  · intro alloc
    rfl
  · intro alloc
    rfl

/-! ### All-zero inputs (C6) -/

theorem read_replicate_zero : ∀ t, read_fp16_le_slice (List.replicate (2 * t) 0) =
    List.replicate t 0
  | 0 => rfl
  | t + 1 => by
    rw [show 2 * (t + 1) = 2 * t + 1 + 1 from by omega, List.replicate_succ,
      List.replicate_succ, read_fp16_le_slice, read_replicate_zero t]
    rfl

theorem getD_replicate_zero (t i : Nat) :
    (List.replicate t (0 : Nat)).getD i 0 = 0 := by
  rw [List.getD_eq_getElem?_getD, List.getElem?_replicate]
  split <;> rfl

theorem spec_entry_zeros (t u n k i j : Nat) :
    spec_entry (List.replicate t 0) (List.replicate u 0) n k i j = 0 := by
  rw [spec_entry]
  have hstep : ∀ l : List Nat, ∀ acc, acc = 0 →
      l.foldl (fun acc p => f32add acc
        (f32mul ((List.replicate t (0 : Nat)).getD (i * k + p) 0)
          ((List.replicate u (0 : Nat)).getD (p * n + j) 0))) acc = 0 := by
    intro l
    induction l with
    | nil => intro acc h; simpa using h
    | cons p rest ih =>
      intro acc h
      rw [List.foldl_cons]
      exact ih _ (by rw [h, getD_replicate_zero, getD_replicate_zero]; rfl)
  exact hstep (List.range k) 0 rfl

/-- Counterexample to C6 as stated: the all-zero input with the valid
degenerate shape m = 1, n = 0, k = 2 does not succeed with an empty
buffer — the call panics in `par_chunks_mut(0)`. -/
theorem gemm_zero_inputs_counterexample :
    ¬ ∃ out, gemm_fp16_acc32 (fun _ => true) (List.replicate 4 0) [] 1 0 2 =
      some (NifTerm.okBin out) := by
  rintro ⟨out, h⟩
  rw [show gemm_fp16_acc32 (fun _ => true) (List.replicate 4 0) [] 1 0 2 =
    none from by decide] at h
  cases h

/-- C6 as amended: for every shape with n ≥ 1 whose sizes are representable
— including the fp32 accumulator, whose 4·m·n bytes must stay within
`isize::MAX` or the kernel panics with a capacity overflow (see C3) — and
whose output allocation succeeds, all-zero input buffers of the correct
lengths produce the all-zero m·n·2-byte output buffer. -/
theorem gemm_zero_inputs_zero_output (alloc : Nat → Bool) (m n k : Nat)
    (hn : 0 < n) (hsa : m * k * 2 < USIZE) (hsb : k * n * 2 < USIZE)
    (hmn : m * n < USIZE) (hsat : m * n * 2 < USIZE)
    (hcap : 4 * (m * n) ≤ ISIZE_MAX)
    (halloc : alloc (m * n * 2) = true) :
    gemm_fp16_acc32 alloc (List.replicate (m * k * 2) 0)
        (List.replicate (k * n * 2) 0) m n k =
      some (NifTerm.okBin (List.replicate (m * n * 2) 0)) := by
  rw [gemm_run alloc _ _ m n k hn (by rw [List.length_replicate]) hsa
    (by rw [List.length_replicate]) hsb hmn hcap, if_pos hsat, if_pos hsat,
    if_pos halloc]
  congr 1
  congr 1
  rw [gemm_spec_bytes]
  have hra : read_fp16_le_slice (List.replicate (m * k * 2) 0) =
      List.replicate (m * k) 0 := by
    rw [show m * k * 2 = 2 * (m * k) from by ring, read_replicate_zero]
  have hrb : read_fp16_le_slice (List.replicate (k * n * 2) 0) =
      List.replicate (k * n) 0 := by
    rw [show k * n * 2 = 2 * (k * n) from by ring, read_replicate_zero]
  rw [hra, hrb, List.map_replicate, List.map_replicate,
    show f16_to_f32 0 = 0 from rfl]
  have hmap : (List.range m).map (fun i => spec_row (List.replicate (m * k) 0)
      (List.replicate (k * n) 0) n k i) =
      List.replicate m (List.replicate n 0) := by
    have hfun : (fun i => spec_row (List.replicate (m * k) 0)
        (List.replicate (k * n) 0) n k i) =
        fun _ => List.replicate n (0 : Nat) := by
      funext i
      rw [spec_row]
      have : (fun j => spec_entry (List.replicate (m * k) 0)
          (List.replicate (k * n) 0) n k i j) = fun _ => (0 : Nat) := by
        funext j
        exact spec_entry_zeros _ _ n k i j
      rw [this, List.map_const', List.length_range]
    rw [hfun, List.map_const', List.length_range]
  have hflat : ∀ t, flatBytes (List.replicate t 0) = List.replicate (2 * t) 0 := by
    intro t
    induction t with
    | zero => rfl
    | succ c ih =>
      rw [List.replicate_succ, flatBytes, ih,
        show 2 * (c + 1) = 2 * c + 1 + 1 from by omega,
        List.replicate_succ, List.replicate_succ]
  rw [hmap, List.flatten_replicate_replicate, List.map_replicate,
    show f32_to_f16 0 = 0 from rfl, hflat]
  congr 1
  ring

/-- Witness for the amended C6 at m = n = k = 1. -/
theorem gemm_zero_inputs_zero_output_witness :
    gemm_fp16_acc32 (fun _ => true) [0, 0] [0, 0] 1 1 1 =
      some (NifTerm.okBin [0, 0]) := by
  have := gemm_zero_inputs_zero_output (fun _ => true) 1 1 1
    (by omega) (by norm_num [USIZE]) (by norm_num [USIZE])
    (by norm_num [USIZE]) (by norm_num [USIZE])
    (by norm_num [ISIZE_MAX]) rfl
  simpa using this

/-! ### fp16 → fp32 → fp16 round trip (C9) -/

theorem checkRange_sound (p : Nat → Bool) :
    ∀ d lo cnt, checkRange p d lo cnt = true →
      ∀ u, lo ≤ u → u < lo + cnt → p u = true := by
  intro d
  induction d with
  | zero =>
    intro lo cnt h u h1 h2
    simp only [checkRange, Bool.or_eq_true, Bool.and_eq_true,
      decide_eq_true_eq] at h
    rcases h with h | ⟨h, hp⟩
    · omega
    · have : u = lo := by omega
      simpa [this] using hp
  | succ d ih =>
    intro lo cnt h u h1 h2
    rw [checkRange] at h
    by_cases hc : cnt ≤ 1
    · rw [if_pos hc] at h
      simp only [Bool.or_eq_true, Bool.and_eq_true, decide_eq_true_eq] at h
      rcases h with h | ⟨h, hp⟩
      · omega
      · have : u = lo := by omega
        simpa [this] using hp
    · rw [if_neg hc, Bool.and_eq_true] at h
      by_cases hu : u < lo + cnt / 2
      · exact ih lo (cnt / 2) h.1 u h1 hu
      · exact ih (lo + cnt / 2) (cnt - cnt / 2) h.2 u (by omega) (by omega)

set_option maxHeartbeats 4000000 in
/-- Exhaustive check of the round trip on all subnormal and zero fp16
patterns (exponent field 0, both signs). -/
theorem rtPair_subnormals : checkRange rtPair 11 0 1024 = true := by decide

theorem roundtrip16_normal (s e5 man : Nat) (hs : s < 2) (he1 : 1 ≤ e5)
    (he2 : e5 ≤ 30) (hman : man < 2 ^ 10) :
    f32_to_f16 (f16_to_f32 (s * 2 ^ 15 + e5 * 2 ^ 10 + man)) =
      s * 2 ^ 15 + e5 * 2 ^ 10 + man := by
  have hpromote : f16_to_f32 (s * 2 ^ 15 + e5 * 2 ^ 10 + man) =
      s * 2 ^ 31 + (e5 + 112) * 2 ^ 23 + man * 2 ^ 13 := by
    rw [f16_to_f32,
      if_neg (by omega : ¬ (s * 2 ^ 15 + e5 * 2 ^ 10 + man) % 2 ^ 15 = 0)]
    rw [show f16exp (s * 2 ^ 15 + e5 * 2 ^ 10 + man) = e5 from by
      rw [f16exp]; omega]
    rw [show f16man (s * 2 ^ 15 + e5 * 2 ^ 10 + man) = man from by
      rw [f16man]; omega]
    rw [show (s * 2 ^ 15 + e5 * 2 ^ 10 + man) / 2 ^ 15 % 2 = s from by omega]
    rw [if_neg (by omega : ¬ e5 = 31), if_neg (by omega : ¬ e5 = 0)]
  rw [hpromote, f32_to_f16]
  rw [show f32sign (s * 2 ^ 31 + (e5 + 112) * 2 ^ 23 + man * 2 ^ 13) = s
    from by rw [f32sign]; omega]
  rw [show f32exp (s * 2 ^ 31 + (e5 + 112) * 2 ^ 23 + man * 2 ^ 13) = e5 + 112
    from by rw [f32exp]; omega]
  rw [show f32man (s * 2 ^ 31 + (e5 + 112) * 2 ^ 23 + man * 2 ^ 13) =
    man * 2 ^ 13 from by rw [f32man]; omega]
  rw [if_neg (by omega : ¬ e5 + 112 = 255)]
  rw [if_neg (by push_cast; omega :
    ¬ ((e5 + 112 : Nat) : Int) - 127 + 15 ≥ 31)]
  rw [if_neg (by push_cast; omega :
    ¬ ((e5 + 112 : Nat) : Int) - 127 + 15 ≤ 0)]
  rw [if_neg (by
    rw [show man * 2 ^ 13 / 2 ^ 12 % 2 = 0 from by omega]
    omega)]
  rw [show (((e5 + 112 : Nat) : Int) - 127 + 15).toNat = e5 from by
    push_cast; omega]
  rw [show man * 2 ^ 13 / 2 ^ 13 = man from by omega]

/-- Promoting any non-NaN fp16 bit pattern to fp32 and narrowing it back
reproduces the pattern bit for bit. -/
theorem roundtrip16 (u : Nat) (hu : u < 2 ^ 16) (hnan : isNaN16 u = false) :
    f32_to_f16 (f16_to_f32 u) = u := by
  have hdec : u = u / 2 ^ 15 * 2 ^ 15 + f16exp u * 2 ^ 10 + f16man u := by
    rw [f16exp, f16man]; omega
  have hs : u / 2 ^ 15 < 2 := by omega
  have he : f16exp u < 32 := by rw [f16exp]; omega
  have hman : f16man u < 2 ^ 10 := by rw [f16man]; omega
  rw [isNaN16, Bool.and_eq_false_iff] at hnan
  by_cases he0 : f16exp u = 0
  · -- subnormal or zero: covered by the exhaustive check
    have hu0 : u = u / 2 ^ 15 * 2 ^ 15 + f16man u := by
      rw [f16man]
      rw [f16exp] at he0
      omega
    have hrt := checkRange_sound rtPair 11 0 1024 rtPair_subnormals
      (f16man u) (by omega) (by omega)
    rw [rtPair, Bool.and_eq_true, beq_iff_eq, beq_iff_eq] at hrt
    rcases (by omega : u / 2 ^ 15 = 0 ∨ u / 2 ^ 15 = 1) with h | h <;>
      rw [hu0, h]
    · simpa using hrt.1
    · simpa [Nat.add_comm] using hrt.2
  · by_cases he31 : f16exp u = 31
    · -- infinity (NaN is excluded)
      have hman0 : f16man u = 0 := by
        rcases hnan with h | h
        · simp only [decide_eq_false_iff_not] at h
          omega
        · simpa using h
      rcases (by omega : u / 2 ^ 15 = 0 ∨ u / 2 ^ 15 = 1) with h | h <;>
        rw [hdec, he31, hman0, h] <;> decide
    · -- normal
      rw [hdec]
      exact roundtrip16_normal (u / 2 ^ 15) (f16exp u) (f16man u) hs
        (by omega) (by omega) hman

/-- C9: for every 2-byte little-endian fp16 bit pattern that is not a NaN
(in particular every pattern whose value is exactly representable in half
precision), decoding it through the fp16-to-fp32 promotion and re-encoding
it through the narrowing fp32-to-fp16 conversion reproduces the original
bytes exactly. -/
theorem fp16_promote_narrow_roundtrip (b0 b1 : Nat) (h0 : b0 < 256)
    (h1 : b1 < 256) (hnan : isNaN16 (b0 + 256 * b1) = false) :
    write_fp16_le_slice [0, 0]
        ((read_fp16_le_slice [b0, b1]).map fun u => f32_to_f16 (f16_to_f32 u))
        0 = some [b0, b1] := by
  have hread : read_fp16_le_slice [b0, b1] = [b0 + 256 * b1] := rfl
  rw [hread, List.map_cons, List.map_nil,
    roundtrip16 (b0 + 256 * b1) (by omega) hnan]
  rw [write_fp16_le_slice]
  rw [show store [0, 0] (0 * 2) ((b0 + 256 * b1) % 256) =
    some [(b0 + 256 * b1) % 256, 0] from by rw [store]; rfl]
  rw [Option.bind_eq_bind, Option.some_bind]
  rw [show store [(b0 + 256 * b1) % 256, 0] (0 * 2 + 1)
      ((b0 + 256 * b1) / 256 % 256) =
    some [(b0 + 256 * b1) % 256, (b0 + 256 * b1) / 256 % 256] from by
      rw [store]; rfl]
  rw [Option.some_bind, write_fp16_le_slice]
  rw [show (b0 + 256 * b1) % 256 = b0 from by omega,
    show (b0 + 256 * b1) / 256 % 256 = b1 from by omega]

/-- Witness for C9 at the pattern of 1.0 (bytes `[0x00, 0x3C]`). -/
theorem fp16_promote_narrow_roundtrip_witness :
    write_fp16_le_slice [0, 0]
        ((read_fp16_le_slice [0x00, 0x3C]).map fun u =>
          f32_to_f16 (f16_to_f32 u)) 0 = some [0x00, 0x3C] :=
  fp16_promote_narrow_roundtrip 0x00 0x3C (by decide) (by decide) (by decide)

/-! ### Exact-rounding facts about the binary32 model -/

theorem bitlenAux_spec :
    ∀ fuel n, 0 < n → n < 2 ^ fuel →
      1 ≤ bitlenAux fuel n ∧ 2 ^ (bitlenAux fuel n - 1) ≤ n ∧
        n < 2 ^ bitlenAux fuel n := by
  intro fuel
  induction fuel with
  | zero => intro n h1 h2; omega
  | succ f ih =>
    intro n h1 h2
    rw [bitlenAux, if_neg (by omega)]
    by_cases hn : n / 2 = 0
    · have hn1 : n = 1 := by omega
      subst hn1
      rw [hn, show bitlenAux f 0 = 0 from by cases f <;> rfl]
      omega
    · have hh := ih (n / 2) (by omega) (by
        rw [pow_succ] at h2
        omega)
      rcases hh with ⟨hL, hlo, hhi⟩
      refine ⟨by omega, ?_, ?_⟩
      · rw [show bitlenAux f (n / 2) + 1 - 1 = (bitlenAux f (n / 2) - 1) + 1
          from by omega, pow_succ]
        omega
      · rw [pow_succ]
        omega

theorem bitlen_eq_of_bounds (n L : Nat) (hL : 1 ≤ L)
    (hlo : 2 ^ (L - 1) ≤ n) (hhi : n < 2 ^ L) (hfit : L ≤ BITFUEL) :
    bitlen n = L := by
  have hn : 0 < n := lt_of_lt_of_le (by positivity) hlo
  have hspec := bitlenAux_spec BITFUEL n hn
    (lt_of_lt_of_le hhi (Nat.pow_le_pow_right (by omega) hfit))
  rcases hspec with ⟨h1, h2, h3⟩
  rw [bitlen]
  by_contra hne
  rcases Nat.lt_or_ge (bitlenAux BITFUEL n) L with hlt | hge
  · have : 2 ^ bitlenAux BITFUEL n ≤ 2 ^ (L - 1) :=
      Nat.pow_le_pow_right (by omega) (by omega)
    omega
  · have hgt : L < bitlenAux BITFUEL n := by omega
    have : 2 ^ L ≤ 2 ^ (bitlenAux BITFUEL n - 1) :=
      Nat.pow_le_pow_right (by omega) (by omega)
    omega

theorem f32_fields_recombine (x : Nat) (hx : x < 2 ^ 32) :
    x = f32sign x * 2 ^ 31 + f32exp x * 2 ^ 23 + f32man x := by
  rw [f32sign, f32exp, f32man]
  omega

theorem roundFin_exact32 (x : Nat) (hx : x < 2 ^ 32)
    (hnan : isNaN32 x = false) (hinf : isInf32 x = false)
    (hzero : isZero32 x = false) :
    roundFin 23 8 (f32sign x) (decode32 x).1 (decode32 x).2 = x := by
  have hexp : f32exp x < 256 := by rw [f32exp]; omega
  have hman : f32man x < 2 ^ 23 := by rw [f32man]; omega
  rw [isNaN32, Bool.and_eq_false_iff] at hnan
  rw [isInf32, Bool.and_eq_false_iff] at hinf
  rw [isZero32, Bool.and_eq_false_iff] at hzero
  by_cases he0 : f32exp x = 0
  · have hman0 : f32man x ≠ 0 := by
      rcases hzero with h | h
      · simp [he0] at h
      · simpa using h
    rw [decode32, if_pos he0]
    have hL := bitlenAux_spec BITFUEL (f32man x) (by omega)
      (by
        have : (2 : Nat) ^ 23 ≤ 2 ^ BITFUEL :=
          Nat.pow_le_pow_right (by omega) (by rw [BITFUEL]; omega)
        omega)
    rcases hL with ⟨h1, h2, h3⟩
    have hLle : bitlenAux BITFUEL (f32man x) ≤ 23 := by
      by_contra hgt
      have : 2 ^ 23 ≤ 2 ^ (bitlenAux BITFUEL (f32man x) - 1) :=
        Nat.pow_le_pow_right (by omega) (by omega)
      omega
    rw [roundFin, if_neg (by omega : ¬ f32man x = 0)]
    have hulp : ((-149 : Int) + ((bitlen (f32man x) : Int) - 1) -
        ((23 : Nat) : Int)) ⊔ ((1 : Int) - ((2 : Int) ^ (8 - 1) - 1) -
        ((23 : Nat) : Int)) = -149 := by
      rw [max_eq_right (by
        rw [bitlen]
        have hc : ((bitlenAux BITFUEL (f32man x) : Int)) ≤ 23 := by
          exact_mod_cast hLle
        norm_num
        omega)]
      norm_num
    simp only []
    rw [hulp]
    rw [if_pos (by norm_num : (-149 : Int) ≥ -149)]
    rw [show ((-149 : Int) - -149).toNat = 0 from by norm_num]
    rw [pow_zero, Nat.mul_one]
    have hcar : ¬ f32man x ≥ 2 ^ (23 + 1) := by omega
    rw [if_neg hcar, if_neg hcar]
    rw [if_neg (by norm_num : ¬ (-149 : Int) + ((23:Nat):Int) > 2 ^ (8 - 1) - 1)]
    rw [if_pos (by omega : f32man x < 2 ^ 23)]
    have := f32_fields_recombine x hx
    omega
  · rw [decode32, if_neg he0]
    have hexp254 : f32exp x ≤ 254 := by
      rcases hinf with h | h
      · simp only [decide_eq_false_iff_not] at h
        omega
      · rcases hnan with h' | h'
        · simp only [decide_eq_false_iff_not] at h'
          omega
        · simp only [bne_eq_false_iff_eq] at h'
          simp only [decide_eq_false_iff_not] at h
          omega
    have hbl : bitlen (2 ^ 23 + f32man x) = 24 :=
      bitlen_eq_of_bounds _ 24 (by omega) (by omega)
        (by omega) (by rw [BITFUEL]; omega)
    rw [roundFin, if_neg (by positivity)]
    simp only []
    rw [hbl]
    have hulp : (((f32exp x : Int) - 150) + (((24:Nat) : Int) - 1) -
        ((23 : Nat) : Int)) ⊔ ((1 : Int) - ((2 : Int) ^ (8 - 1) - 1) -
        ((23 : Nat) : Int)) = (f32exp x : Int) - 150 := by
      rw [max_eq_left (by push_cast; omega)]
      push_cast
      ring
    rw [hulp, if_pos (le_refl _)]
    rw [Int.sub_self, Int.toNat_zero, pow_zero, Nat.mul_one]
    have hcar : ¬ 2 ^ 23 + f32man x ≥ 2 ^ (23 + 1) := by omega
    rw [if_neg hcar, if_neg hcar]
    rw [if_neg (by push_cast; omega :
      ¬ (f32exp x : Int) - 150 + ((23:Nat):Int) > 2 ^ (8 - 1) - 1)]
    rw [if_neg (by omega : ¬ 2 ^ 23 + f32man x < 2 ^ 23)]
    have htn : (((f32exp x : Int)) - 150 + (2 ^ (8 - 1) - 1) +
        ((23:Nat):Int)).toNat = f32exp x := by
      push_cast
      omega
    rw [htn]
    have := f32_fields_recombine x hx
    omega

theorem f32sign_lt_two (x : Nat) : f32sign x < 2 := by
  rw [f32sign]; omega

/-- Rounding the exact value of a finite nonzero binary32 datum, presented
with its significand shifted up by 23 bits, returns its bit pattern. -/
theorem roundFin_exact32_shifted (x : Nat) (hx : x < 2 ^ 32)
    (hnan : isNaN32 x = false) (hinf : isInf32 x = false)
    (hzero : isZero32 x = false) :
    roundFin 23 8 (f32sign x) ((decode32 x).1 * 2 ^ 23)
      ((decode32 x).2 + -23) = x := by
  have hexp : f32exp x < 256 := by rw [f32exp]; omega
  have hman : f32man x < 2 ^ 23 := by rw [f32man]; omega
  rw [isNaN32, Bool.and_eq_false_iff] at hnan
  rw [isInf32, Bool.and_eq_false_iff] at hinf
  rw [isZero32, Bool.and_eq_false_iff] at hzero
  by_cases he0 : f32exp x = 0
  · have hman0 : f32man x ≠ 0 := by
      rcases hzero with h | h
      · simp [he0] at h
      · simpa using h
    rw [decode32, if_pos he0]
    simp only []
    have hL := bitlenAux_spec BITFUEL (f32man x) (by omega)
      (by
        have : (2 : Nat) ^ 23 ≤ 2 ^ BITFUEL :=
          Nat.pow_le_pow_right (by omega) (by rw [BITFUEL]; omega)
        omega)
    rcases hL with ⟨h1, h2, h3⟩
    have hLle : bitlenAux BITFUEL (f32man x) ≤ 23 := by
      by_contra hgt
      have : 2 ^ 23 ≤ 2 ^ (bitlenAux BITFUEL (f32man x) - 1) :=
        Nat.pow_le_pow_right (by omega) (by omega)
      omega
    have hbl : bitlen (f32man x * 2 ^ 23) = bitlenAux BITFUEL (f32man x) + 23 := by
      apply bitlen_eq_of_bounds
      · omega
      · rw [show bitlenAux BITFUEL (f32man x) + 23 - 1 =
          (bitlenAux BITFUEL (f32man x) - 1) + 23 from by omega, pow_add]
        exact Nat.mul_le_mul_right _ h2
      · rw [pow_add]
        exact (Nat.mul_lt_mul_right (by positivity)).mpr h3
      · have hB : BITFUEL = 512 := rfl
        omega
    rw [roundFin, if_neg (by positivity)]
    simp only []
    rw [hbl]
    have hulp : ((-149 : Int) + -23 +
        (((bitlenAux BITFUEL (f32man x) + 23 : Nat) : Int) - 1) -
        ((23 : Nat) : Int)) ⊔ ((1 : Int) - ((2 : Int) ^ (8 - 1) - 1) -
        ((23 : Nat) : Int)) = -149 := by
      rw [max_eq_right (by
        have hc : ((bitlenAux BITFUEL (f32man x) : Int)) ≤ 23 := by
          exact_mod_cast hLle
        push_cast
        omega)]
      norm_num
    rw [hulp]
    rw [if_neg (by norm_num : ¬ (-149 : Int) + -23 ≥ -149)]
    rw [show ((-149 : Int) - (-149 + -23)).toNat = 23 from by decide]
    rw [show f32man x * 2 ^ 23 / 2 ^ 23 = f32man x from by omega]
    rw [show f32man x * 2 ^ 23 % 2 ^ 23 = 0 from by omega]
    rw [if_neg (show ¬ ((0:Nat) > 2 ^ (23 - 1) ∨
      (0:Nat) = 2 ^ (23 - 1) ∧ f32man x % 2 = 1) from by norm_num)]
    have hcar : ¬ f32man x ≥ 2 ^ (23 + 1) := by omega
    rw [if_neg hcar, if_neg hcar]
    rw [if_neg (by norm_num : ¬ (-149 : Int) + ((23:Nat):Int) > 2 ^ (8 - 1) - 1)]
    rw [if_pos (by omega : f32man x < 2 ^ 23)]
    have := f32_fields_recombine x hx
    omega
  · rw [decode32, if_neg he0]
    simp only []
    have hexp254 : f32exp x ≤ 254 := by
      rcases hinf with h | h
      · simp only [decide_eq_false_iff_not] at h
        omega
      · rcases hnan with h' | h'
        · simp only [decide_eq_false_iff_not] at h'
          omega
        · simp only [bne_eq_false_iff_eq] at h'
          simp only [decide_eq_false_iff_not] at h
          omega
    have hbl : bitlen ((2 ^ 23 + f32man x) * 2 ^ 23) = 47 :=
      bitlen_eq_of_bounds _ 47 (by omega)
        (by
          rw [show (47 : Nat) - 1 = 23 + 23 from by omega, pow_add]
          exact Nat.mul_le_mul_right _ (by omega))
        (by
          rw [show (47 : Nat) = 24 + 23 from by omega, pow_add]
          exact (Nat.mul_lt_mul_right (by positivity)).mpr (by omega))
        (by rw [BITFUEL]; omega)
    rw [roundFin, if_neg (by positivity)]
    simp only []
    rw [hbl]
    have hulp : (((f32exp x : Int) - 150) + -23 + (((47:Nat) : Int) - 1) -
        ((23 : Nat) : Int)) ⊔ ((1 : Int) - ((2 : Int) ^ (8 - 1) - 1) -
        ((23 : Nat) : Int)) = (f32exp x : Int) - 150 := by
      rw [max_eq_left (by push_cast; omega)]
      push_cast
      ring
    rw [hulp]
    rw [if_neg (by omega :
      ¬ (f32exp x : Int) - 150 + -23 ≥ (f32exp x : Int) - 150)]
    have hsh : (((f32exp x : Int) - 150) - ((f32exp x : Int) - 150 + -23)).toNat
        = 23 := by omega
    rw [hsh]
    rw [show (2 ^ 23 + f32man x) * 2 ^ 23 / 2 ^ 23 = 2 ^ 23 + f32man x
      from by omega]
    rw [show (2 ^ 23 + f32man x) * 2 ^ 23 % 2 ^ 23 = 0 from by omega]
    rw [if_neg (show ¬ ((0:Nat) > 2 ^ (23 - 1) ∨
      (0:Nat) = 2 ^ (23 - 1) ∧ (2 ^ 23 + f32man x) % 2 = 1) from by norm_num)]
    have hcar : ¬ 2 ^ 23 + f32man x ≥ 2 ^ (23 + 1) := by omega
    rw [if_neg hcar, if_neg hcar]
    rw [if_neg (by push_cast; omega :
      ¬ (f32exp x : Int) - 150 + ((23:Nat):Int) > 2 ^ (8 - 1) - 1)]
    rw [if_neg (by omega : ¬ 2 ^ 23 + f32man x < 2 ^ 23)]
    have htn : (((f32exp x : Int)) - 150 + (2 ^ (8 - 1) - 1) +
        ((23:Nat):Int)).toNat = f32exp x := by
      push_cast
      omega
    rw [htn]
    have := f32_fields_recombine x hx
    omega

theorem bool_ne_true (b : Bool) (h : ¬ b = true) : b = false := by
  cases b
  · rfl
  · exact absurd rfl h

theorem f32mul_one_right (x : Nat) (hx : x < 2 ^ 32)
    (hnan : isNaN32 x = false) (hinf : isInf32 x = false) :
    f32mul x 0x3F800000 = x := by
  have h1 : isNaN32 0x3F800000 = false := by decide
  have h2 : isInf32 0x3F800000 = false := by decide
  have h3 : isZero32 0x3F800000 = false := by decide
  have h4 : f32sign 0x3F800000 = 0 := by decide
  have h5 : decode32 0x3F800000 = (2 ^ 23, -23) := by decide
  have hs : (f32sign x + 0) % 2 = f32sign x := by
    have := f32sign_lt_two x
    omega
  simp only [f32mul, h1, h2, h3, h4, h5, hnan, hinf, Bool.or_false,
    Bool.false_or, Bool.or_self, Bool.false_eq_true, if_false, hs]
  by_cases hz : isZero32 x = true
  · rw [if_pos hz]
    rw [isZero32, Bool.and_eq_true, decide_eq_true_eq, decide_eq_true_eq] at hz
    have := f32_fields_recombine x hx
    omega
  · rw [if_neg hz]
    exact roundFin_exact32_shifted x hx hnan hinf (bool_ne_true _ hz)

theorem f32mul_one_left (y : Nat) (hy : y < 2 ^ 32)
    (hnan : isNaN32 y = false) (hinf : isInf32 y = false) :
    f32mul 0x3F800000 y = y := by
  have h1 : isNaN32 0x3F800000 = false := by decide
  have h2 : isInf32 0x3F800000 = false := by decide
  have h3 : isZero32 0x3F800000 = false := by decide
  have h4 : f32sign 0x3F800000 = 0 := by decide
  have h5 : decode32 0x3F800000 = (2 ^ 23, -23) := by decide
  have hs : (0 + f32sign y) % 2 = f32sign y := by
    have := f32sign_lt_two y
    omega
  simp only [f32mul, h1, h2, h3, h4, h5, hnan, hinf, Bool.or_false,
    Bool.false_or, Bool.or_self, Bool.false_eq_true, if_false, hs]
  by_cases hz : isZero32 y = true
  · rw [if_pos hz]
    rw [isZero32, Bool.and_eq_true, decide_eq_true_eq, decide_eq_true_eq] at hz
    have := f32_fields_recombine y hy
    omega
  · rw [if_neg hz]
    rw [Nat.mul_comm, Int.add_comm]
    exact roundFin_exact32_shifted y hy hnan hinf (bool_ne_true _ hz)

theorem f32mul_zero_right (x : Nat)
    (hnan : isNaN32 x = false) (hinf : isInf32 x = false) :
    f32mul x 0 = f32sign x * 2 ^ 31 := by
  have h1 : isNaN32 0 = false := by decide
  have h3 : isZero32 0 = true := by decide
  have h4 : f32sign 0 = 0 := by decide
  have hs : (f32sign x + 0) % 2 = f32sign x := by
    have := f32sign_lt_two x
    omega
  have h2 : isInf32 0 = false := by decide
  simp only [f32mul, h1, h2, h3, h4, hnan, hinf, Bool.or_false, Bool.false_or,
    Bool.or_self, Bool.or_true, Bool.false_eq_true, if_false, if_true, hs]

theorem f32mul_zero_left (y : Nat)
    (hnan : isNaN32 y = false) (hinf : isInf32 y = false) :
    f32mul 0 y = f32sign y * 2 ^ 31 := by
  have h1 : isNaN32 0 = false := by decide
  have h3 : isZero32 0 = true := by decide
  have h4 : f32sign 0 = 0 := by decide
  have hs : (0 + f32sign y) % 2 = f32sign y := by
    have := f32sign_lt_two y
    omega
  have h2 : isInf32 0 = false := by decide
  simp only [f32mul, h1, h2, h3, h4, hnan, hinf, Bool.or_false, Bool.false_or,
    Bool.or_self, Bool.true_or, Bool.false_eq_true, if_false, if_true, hs]

theorem isInf32_not_zero (x : Nat) (h : isInf32 x = true) :
    isZero32 x = false := by
  rw [isInf32, Bool.and_eq_true] at h
  rw [isZero32]
  rcases h with ⟨ha, _⟩
  simp only [decide_eq_true_eq] at ha
  simp [ha]

theorem f32add_poszero_left (x : Nat) (hnan : isNaN32 x = false) :
    f32add 0 x = if isZero32 x = true then 0 else x := by
  have h1 : isNaN32 0 = false := by decide
  have h2 : isInf32 0 = false := by decide
  have h3 : isZero32 0 = true := by decide
  have h4 : f32sign 0 = 0 := by decide
  have h5 : decide ((0 : Nat) = 1) = false := by decide
  simp only [f32add, h1, h2, h3, h4, h5, hnan, Bool.or_false, Bool.false_or,
    Bool.or_self, Bool.true_and, Bool.false_and, Bool.false_eq_true, if_false,
    if_true]
  by_cases hinf : isInf32 x = true
  · rw [if_pos hinf, if_neg (by rw [isInf32_not_zero x hinf]; simp)]
  · rw [if_neg hinf]

theorem f32add_signed_zero_right (x s : Nat) (hs : s < 2)
    (hnan : isNaN32 x = false) (hnz : isZero32 x = false) :
    f32add x (s * 2 ^ 31) = x := by
  rcases (by omega : s = 0 ∨ s = 1) with h | h <;> subst h
  · have h1 : isNaN32 (0 * 2 ^ 31) = false := by decide
    have h2 : isInf32 (0 * 2 ^ 31) = false := by decide
    have h3 : isZero32 (0 * 2 ^ 31) = true := by decide
    simp only [f32add, h1, h2, h3, hnan, hnz, Bool.or_false, Bool.false_or,
      Bool.and_false, Bool.false_and, Bool.false_eq_true, if_false, if_true]
    by_cases hinf : isInf32 x = true
    · rw [if_pos hinf]
    · rw [if_neg hinf]
  · have h1 : isNaN32 (1 * 2 ^ 31) = false := by decide
    have h2 : isInf32 (1 * 2 ^ 31) = false := by decide
    have h3 : isZero32 (1 * 2 ^ 31) = true := by decide
    simp only [f32add, h1, h2, h3, hnan, hnz, Bool.or_false, Bool.false_or,
      Bool.and_false, Bool.false_and, Bool.false_eq_true, if_false, if_true]
    by_cases hinf : isInf32 x = true
    · rw [if_pos hinf]
    · rw [if_neg hinf]

theorem f32add_zero_signed_zero (s : Nat) (hs : s < 2) :
    f32add 0 (s * 2 ^ 31) = 0 := by
  rcases (by omega : s = 0 ∨ s = 1) with h | h <;> subst h <;> decide

-- temporary sanity checks of the kernel model
/-! ### Identity matrices and signed-zero normalization (C7 support) -/

theorem f32_fields_of_parts (s E M : Nat) (hs : s < 2) (hE : E < 256)
    (hM : M < 2 ^ 23) :
    f32sign (s * 2 ^ 31 + E * 2 ^ 23 + M) = s ∧
    f32exp (s * 2 ^ 31 + E * 2 ^ 23 + M) = E ∧
    f32man (s * 2 ^ 31 + E * 2 ^ 23 + M) = M := by
  rw [f32sign, f32exp, f32man]
  refine ⟨?_, ?_, ?_⟩ <;> omega

theorem fp32_parts_props (s E M : Nat) (hs : s < 2) (hE : E < 256)
    (hM : M < 2 ^ 23) (hEne : E ≠ 255) :
    s * 2 ^ 31 + E * 2 ^ 23 + M < 2 ^ 32 ∧
    isNaN32 (s * 2 ^ 31 + E * 2 ^ 23 + M) = false ∧
    isInf32 (s * 2 ^ 31 + E * 2 ^ 23 + M) = false ∧
    (isZero32 (s * 2 ^ 31 + E * 2 ^ 23 + M) = true ↔ E = 0 ∧ M = 0) := by
  obtain ⟨h1, h2, h3⟩ := f32_fields_of_parts s E M hs hE hM
  refine ⟨by omega, ?_, ?_, ?_⟩
  · rw [isNaN32, h2, h3]
    simp [hEne]
  · rw [isInf32, h2, h3]
    simp [hEne]
  · rw [isZero32, h2, h3]
    simp

/-- Promotion of a finite fp16 bit pattern gives a well-formed, finite fp32
pattern, which is a (possibly signed) zero exactly when the fp16 pattern is. -/
theorem promote_finite_props (u : Nat) (hfin : f16exp u ≠ 31) :
    f16_to_f32 u < 2 ^ 32 ∧ isNaN32 (f16_to_f32 u) = false ∧
    isInf32 (f16_to_f32 u) = false ∧
    (isZero32 (f16_to_f32 u) = true ↔ u % 2 ^ 15 = 0) := by
  by_cases hz : u % 2 ^ 15 = 0
  · have hv : f16_to_f32 u = u / 2 ^ 15 % 2 * 2 ^ 31 + 0 * 2 ^ 23 + 0 := by
      rw [f16_to_f32, if_pos hz]
      ring
    rw [hv]
    have h := fp32_parts_props (u / 2 ^ 15 % 2) 0 0
      (Nat.mod_lt _ (by norm_num)) (by norm_num) (by norm_num) (by norm_num)
    refine ⟨h.1, h.2.1, h.2.2.1, ?_⟩
    rw [h.2.2.2]
    exact ⟨fun _ => hz, fun _ => ⟨rfl, rfl⟩⟩
  · by_cases he5 : f16exp u = 0
    · have hman0 : f16man u ≠ 0 := by
        rw [f16exp] at he5
        rw [f16man]
        omega
      obtain ⟨hL1, hLlo, hLhi⟩ := bitlenAux_spec 16 (f16man u)
        (Nat.pos_of_ne_zero hman0) (by rw [f16man]; omega)
      have hL10 : bitlenAux 16 (f16man u) ≤ 10 := by
        by_contra hc
        push_neg at hc
        have h2 : (2 : Nat) ^ 10 ≤ 2 ^ (bitlenAux 16 (f16man u) - 1) :=
          Nat.pow_le_pow_right (by norm_num) (by omega)
        have hm : f16man u < 2 ^ 10 := by rw [f16man]; omega
        omega
      have hv : f16_to_f32 u = u / 2 ^ 15 % 2 * 2 ^ 31 +
          (112 - (16 - bitlenAux 16 (f16man u) - 6)) * 2 ^ 23 +
          f16man u * 2 ^ (14 + (16 - bitlenAux 16 (f16man u) - 6)) % 2 ^ 23 := by
        simp only [f16_to_f32]
        rw [if_neg hz, if_neg hfin, if_pos he5]
      rw [hv]
      have h := fp32_parts_props (u / 2 ^ 15 % 2)
        (112 - (16 - bitlenAux 16 (f16man u) - 6))
        (f16man u * 2 ^ (14 + (16 - bitlenAux 16 (f16man u) - 6)) % 2 ^ 23)
        (Nat.mod_lt _ (by norm_num)) (by omega)
        (Nat.mod_lt _ (by positivity)) (by omega)
      refine ⟨h.1, h.2.1, h.2.2.1, ?_⟩
      rw [h.2.2.2]
      constructor
      · rintro ⟨hE, _⟩
        omega
      · intro hc
        exact absurd hc hz
    · have he5lt : f16exp u < 32 := by rw [f16exp]; omega
      have hmanlt : f16man u < 2 ^ 10 := by rw [f16man]; omega
      have hv : f16_to_f32 u = u / 2 ^ 15 % 2 * 2 ^ 31 +
          (f16exp u + 112) * 2 ^ 23 + f16man u * 2 ^ 13 := by
        simp only [f16_to_f32]
        rw [if_neg hz, if_neg hfin, if_neg he5]
      rw [hv]
      have h := fp32_parts_props (u / 2 ^ 15 % 2) (f16exp u + 112)
        (f16man u * 2 ^ 13) (Nat.mod_lt _ (by norm_num)) (by omega)
        (by omega) (by omega)
      refine ⟨h.1, h.2.1, h.2.2.1, ?_⟩
      rw [h.2.2.2]
      constructor
      · rintro ⟨hE, _⟩
        omega
      · intro hc
        exact absurd hc hz

/-- Every value produced by decoding a genuine byte buffer fits in 16 bits. -/
theorem read_all_lt : ∀ a : List Nat, (∀ x ∈ a, x < 256) →
    ∀ u ∈ read_fp16_le_slice a, u < 2 ^ 16
  | [], _, u, hu => by simp [read_fp16_le_slice] at hu
  | [_], _, u, hu => by simp [read_fp16_le_slice] at hu
  | b0 :: b1 :: rest, h, u, hu => by
    rw [read_fp16_le_slice] at hu
    rcases List.mem_cons.mp hu with h1 | h1
    · have hb0 := h b0 (by simp)
      have hb1 := h b1 (by simp)
      omega
    · exact read_all_lt rest (fun x hx => h x (by simp [hx])) u h1

/-- Decoding inverts serialization on 16-bit values. -/
theorem read_flatBytes (l : List Nat) (h : ∀ u ∈ l, u < 2 ^ 16) :
    read_fp16_le_slice (flatBytes l) = l := by
  induction l with
  | nil => rfl
  | cons x xs ih =>
    rw [flatBytes, read_fp16_le_slice, ih (fun u hu => h u (by simp [hu]))]
    have hx := h x (by simp)
    congr 1
    omega

theorem getD_map_promote (l : List Nat) (idx : Nat) :
    (l.map f16_to_f32).getD idx 0 = f16_to_f32 (l.getD idx 0) := by
  rcases Nat.lt_or_ge idx l.length with hlt | hge
  · rw [List.getD_eq_getElem?_getD, List.getD_eq_getElem?_getD,
      List.getElem?_map, List.getElem?_eq_getElem hlt]
    rfl
  · rw [List.getD_eq_getElem?_getD, List.getD_eq_getElem?_getD,
      List.getElem?_eq_none (by simpa using hge), List.getElem?_eq_none hge]
    rfl

theorem getD_range_map (f : Nat → Nat) (N idx : Nat) (h : idx < N) :
    ((List.range N).map f).getD idx 0 = f idx := by
  rw [List.getD_eq_getElem?_getD, List.getElem?_map, List.getElem?_range h]
  rfl

theorem identity16_getD (k p j : Nat) (hp : p < k) (hj : j < k) :
    (identity16 k).getD (p * k + j) 0 = if p = j then 0x3C00 else 0 := by
  have hidx : p * k + j < k * k := by
    calc p * k + j < p * k + k := by omega
    _ = (p + 1) * k := by ring
    _ ≤ k * k := Nat.mul_le_mul_right k (by omega)
  rw [identity16, getD_range_map _ _ _ hidx]
  have hdiv : (p * k + j) / k = p := by
    rw [show p * k + j = j + k * p from by ring,
      Nat.add_mul_div_left _ _ (by omega : 0 < k), Nat.div_eq_of_lt hj]
    omega
  have hmod : (p * k + j) % k = j := by
    rw [show p * k + j = j + k * p from by ring, Nat.add_mul_mod_self_left]
    exact Nat.mod_eq_of_lt hj
  rw [hdiv, hmod]

theorem identity16_lt (k : Nat) : ∀ u ∈ identity16 k, u < 2 ^ 16 := by
  intro u hu
  rw [identity16] at hu
  obtain ⟨idx, _, hval⟩ := List.mem_map.mp hu
  split at hval <;> omega

theorem foldl_f32add_fixed (g : Nat → Nat) (N : Nat) :
    ∀ l : List Nat, (∀ p ∈ l, f32add N (g p) = N) →
      l.foldl (fun acc p => f32add acc (g p)) N = N := by
  intro l
  induction l with
  | nil => intro _; rfl
  | cons x xs ih =>
    intro h
    rw [List.foldl_cons, h x (by simp)]
    exact ih fun p hp => h p (by simp [hp])

/-- Folding fp32 addition over terms that are all signed zeros except a
single finite "hot" term yields the hot term, with `-0.0` normalized
to `+0.0`. -/
theorem foldl_f32add_onehot (g : Nat → Nat) (k t : Nat) (ht : t < k)
    (hoff : ∀ p, p < k → p ≠ t → ∃ s, s < 2 ∧ g p = s * 2 ^ 31)
    (hnan : isNaN32 (g t) = false) :
    (List.range k).foldl (fun acc p => f32add acc (g p)) 0 =
      if isZero32 (g t) = true then 0 else g t := by
  have h2 : List.range' t (k - t) = t :: List.range' (t + 1) (k - t - 1) := by
    nth_rewrite 1 [show k - t = (k - t - 1) + 1 from by omega]
    rw [List.range'_succ]
  have h1 : List.range' 0 t ++ List.range' t (k - t) = List.range' 0 k := by
    have h := List.range'_append 0 t (k - t) 1
    rw [show 0 + 1 * t = t from by omega,
      show k - t + t = k from by omega] at h
    exact h
  have hsplit : List.range k =
      List.range' 0 t ++ t :: List.range' (t + 1) (k - t - 1) := by
    rw [List.range_eq_range', ← h1, h2]
  rw [hsplit, List.foldl_append, List.foldl_cons]
  have h1 : (List.range' 0 t).foldl (fun acc p => f32add acc (g p)) 0 = 0 := by
    apply foldl_f32add_fixed
    intro p hp
    have hplt : p < t := by
      have := List.mem_range'_1.mp hp
      omega
    obtain ⟨s, hs, hgp⟩ := hoff p (by omega) (by omega)
    rw [hgp]
    exact f32add_zero_signed_zero s hs
  rw [h1, f32add_poszero_left (g t) hnan]
  apply foldl_f32add_fixed
  intro p hp
  have hpgt : t + 1 ≤ p ∧ p < k := by
    have := List.mem_range'_1.mp hp
    omega
  obtain ⟨s, hs, hgp⟩ := hoff p (by omega) (by omega)
  rw [hgp]
  by_cases hz : isZero32 (g t) = true
  · rw [if_pos hz]
    exact f32add_zero_signed_zero s hs
  · rw [if_neg hz]
    exact f32add_signed_zero_right (g t) s hs hnan (by
      cases hgt : isZero32 (g t)
      · rfl
      · exact absurd hgt hz)

theorem getD_take_of_lt (l : List Nat) (N idx : Nat) (h : idx < N) :
    (l.take N).getD idx 0 = l.getD idx 0 := by
  rw [List.getD_eq_getElem?_getD, List.getD_eq_getElem?_getD,
    List.getElem?_take_of_lt h]

theorem getD_drop (l : List Nat) (N idx : Nat) :
    (l.drop N).getD idx 0 = l.getD (N + idx) 0 := by
  rw [List.getD_eq_getElem?_getD, List.getD_eq_getElem?_getD,
    List.getElem?_drop]

theorem map_eq_range_getD (h : Nat → Nat) : ∀ l : List Nat,
    l.map h = (List.range l.length).map fun j => h (l.getD j 0) := by
  intro l
  induction l with
  | nil => rfl
  | cons x xs ih =>
    rw [List.map_cons, List.length_cons, List.range_succ_eq_map, List.map_cons,
      List.map_map, ih]
    congr 1

/-- A list of length `m * k`, mapped elementwise, equals the row-major
flattening of its `m` rows of `k` entries each. -/
theorem map_eq_flatten_rows (h : Nat → Nat) (k : Nat) :
    ∀ (m : Nat) (l : List Nat), l.length = m * k →
      l.map h = ((List.range m).map fun i =>
        (List.range k).map fun j => h (l.getD (i * k + j) 0)).flatten := by
  intro m
  induction m with
  | zero =>
    intro l hl
    rw [List.eq_nil_of_length_eq_zero (by omega : l.length = 0)]
    rfl
  | succ m ih =>
    intro l hl
    rw [List.range_succ, List.map_append, List.flatten_append]
    have hsp : l.map h = (l.take (m * k)).map h ++ (l.drop (m * k)).map h := by
      rw [← List.map_append, List.take_append_drop]
    rw [hsp]
    congr 1
    · rw [ih (l.take (m * k)) (by
        rw [List.length_take, hl, show (m + 1) * k = m * k + k from by ring]
        omega)]
      congr 1
      apply List.map_congr_left
      intro i hi
      have hi' : i < m := List.mem_range.mp hi
      apply List.map_congr_left
      intro j hj
      have hj' : j < k := List.mem_range.mp hj
      rw [getD_take_of_lt]
      calc i * k + j < i * k + k := by omega
      _ = (i + 1) * k := by ring
      _ ≤ m * k := Nat.mul_le_mul_right k (by omega)
    · have hdl : (l.drop (m * k)).length = k := by
        rw [List.length_drop, hl]
        have : (m + 1) * k = m * k + k := by ring
        omega
      rw [map_eq_range_getD h (l.drop (m * k)), hdl, List.map_cons,
        List.map_nil, List.flatten_cons, List.flatten_nil, List.append_nil]
      apply List.map_congr_left
      intro j _
      rw [getD_drop]

/-- Output entry `(i, j)` of `A · I_k` (in fp32, before narrowing): the
promoted entry `A₁₆[i·k+j]`, with a signed zero normalized to `+0.0`. -/
theorem spec_entry_right_identity (a16 : List Nat) (m k i j : Nat)
    (hi : i < m) (hj : j < k) (hlen : a16.length = m * k)
    (hfin : ∀ u ∈ a16, f16exp u ≠ 31) :
    spec_entry (a16.map f16_to_f32) ((identity16 k).map f16_to_f32) k k i j =
      if a16.getD (i * k + j) 0 % 2 ^ 15 = 0 then 0
      else f16_to_f32 (a16.getD (i * k + j) 0) := by
  have hmem : ∀ p, p < k → a16.getD (i * k + p) 0 ∈ a16 := by
    intro p hp
    have hidx : i * k + p < a16.length := by
      rw [hlen]
      calc i * k + p < i * k + k := by omega
      _ = (i + 1) * k := by ring
      _ ≤ m * k := Nat.mul_le_mul_right k (by omega)
    rw [List.getD_eq_getElem _ _ hidx]
    exact List.getElem_mem hidx
  have hB : ∀ p, p < k →
      ((identity16 k).map f16_to_f32).getD (p * k + j) 0 =
        if p = j then 0x3F800000 else 0 := by
    intro p hp
    rw [getD_map_promote, identity16_getD k p j hp hj]
    split
    · decide
    · decide
  have hprops := fun p (hp : p < k) =>
    promote_finite_props (a16.getD (i * k + p) 0) (hfin _ (hmem p hp))
  have hoff : ∀ p, p < k → p ≠ j →
      ∃ s, s < 2 ∧
        f32mul ((a16.map f16_to_f32).getD (i * k + p) 0)
          (((identity16 k).map f16_to_f32).getD (p * k + j) 0) =
          s * 2 ^ 31 := by
    intro p hp hne
    rw [hB p hp, if_neg hne, getD_map_promote]
    exact ⟨f32sign (f16_to_f32 (a16.getD (i * k + p) 0)), f32sign_lt_two _,
      f32mul_zero_right _ (hprops p hp).2.1 (hprops p hp).2.2.1⟩
  have hgj : f32mul ((a16.map f16_to_f32).getD (i * k + j) 0)
      (((identity16 k).map f16_to_f32).getD (j * k + j) 0) =
      f16_to_f32 (a16.getD (i * k + j) 0) := by
    rw [hB j hj, if_pos rfl, getD_map_promote]
    exact f32mul_one_right _ (hprops j hj).1 (hprops j hj).2.1
      (hprops j hj).2.2.1
  have hnan : isNaN32 (f32mul ((a16.map f16_to_f32).getD (i * k + j) 0)
      (((identity16 k).map f16_to_f32).getD (j * k + j) 0)) = false := by
    rw [hgj]
    exact (hprops j hj).2.1
  rw [spec_entry]
  have hfold := foldl_f32add_onehot
    (fun p => f32mul ((a16.map f16_to_f32).getD (i * k + p) 0)
      (((identity16 k).map f16_to_f32).getD (p * k + j) 0)) k j hj hoff hnan
  rw [hfold]
  beta_reduce
  rw [hgj]
  by_cases hz : a16.getD (i * k + j) 0 % 2 ^ 15 = 0
  · rw [if_pos ((hprops j hj).2.2.2.mpr hz), if_pos hz]
  · rw [if_neg (fun hcon => hz ((hprops j hj).2.2.2.mp hcon)), if_neg hz]

/-- Output entry `(i, j)` of `I_k · B` (in fp32, before narrowing): the
promoted entry `B₁₆[i·n+j]`, with a signed zero normalized to `+0.0`. -/
theorem spec_entry_left_identity (b16 : List Nat) (k n i j : Nat)
    (hi : i < k) (hj : j < n) (hlen : b16.length = k * n)
    (hfin : ∀ u ∈ b16, f16exp u ≠ 31) :
    spec_entry ((identity16 k).map f16_to_f32) (b16.map f16_to_f32) n k i j =
      if b16.getD (i * n + j) 0 % 2 ^ 15 = 0 then 0
      else f16_to_f32 (b16.getD (i * n + j) 0) := by
  have hmem : ∀ p, p < k → b16.getD (p * n + j) 0 ∈ b16 := by
    intro p hp
    have hidx : p * n + j < b16.length := by
      rw [hlen]
      calc p * n + j < p * n + n := by omega
      _ = (p + 1) * n := by ring
      _ ≤ k * n := Nat.mul_le_mul_right n (by omega)
    rw [List.getD_eq_getElem _ _ hidx]
    exact List.getElem_mem hidx
  have hA : ∀ p, p < k →
      ((identity16 k).map f16_to_f32).getD (i * k + p) 0 =
        if i = p then 0x3F800000 else 0 := by
    intro p hp
    rw [getD_map_promote, identity16_getD k i p hi hp]
    split
    · decide
    · decide
  have hprops := fun p (hp : p < k) =>
    promote_finite_props (b16.getD (p * n + j) 0) (hfin _ (hmem p hp))
  have hoff : ∀ p, p < k → p ≠ i →
      ∃ s, s < 2 ∧
        f32mul (((identity16 k).map f16_to_f32).getD (i * k + p) 0)
          ((b16.map f16_to_f32).getD (p * n + j) 0) = s * 2 ^ 31 := by
    intro p hp hne
    rw [hA p hp, if_neg (fun hc => hne hc.symm), getD_map_promote]
    exact ⟨f32sign (f16_to_f32 (b16.getD (p * n + j) 0)), f32sign_lt_two _,
      f32mul_zero_left _ (hprops p hp).2.1 (hprops p hp).2.2.1⟩
  have hgi : f32mul (((identity16 k).map f16_to_f32).getD (i * k + i) 0)
      ((b16.map f16_to_f32).getD (i * n + j) 0) =
      f16_to_f32 (b16.getD (i * n + j) 0) := by
    rw [hA i hi, if_pos rfl, getD_map_promote]
    exact f32mul_one_left _ (hprops i hi).1 (hprops i hi).2.1
      (hprops i hi).2.2.1
  have hnan : isNaN32 (f32mul (((identity16 k).map f16_to_f32).getD
      (i * k + i) 0) ((b16.map f16_to_f32).getD (i * n + j) 0)) = false := by
    rw [hgi]
    exact (hprops i hi).2.1
  rw [spec_entry]
  have hfold := foldl_f32add_onehot
    (fun p => f32mul (((identity16 k).map f16_to_f32).getD (i * k + p) 0)
      ((b16.map f16_to_f32).getD (p * n + j) 0)) k i hi hoff hnan
  rw [hfold]
  beta_reduce
  rw [hgi]
  by_cases hz : b16.getD (i * n + j) 0 % 2 ^ 15 = 0
  · rw [if_pos ((hprops i hi).2.2.2.mpr hz), if_pos hz]
  · rw [if_neg (fun hcon => hz ((hprops i hi).2.2.2.mp hcon)), if_neg hz]

/-- Specification bytes of `A · I_k`: the serialized input halfs with signed
zeros normalized. -/
theorem gemm_spec_bytes_right_identity (a : List Nat) (m k : Nat)
    (hbytes : ∀ x ∈ a, x < 256) (ha : a.length = m * k * 2)
    (hfin : ∀ u ∈ read_fp16_le_slice a, f16exp u ≠ 31) :
    gemm_spec_bytes a (flatBytes (identity16 k)) m k k =
      flatBytes ((read_fp16_le_slice a).map normalizeSignedZero16) := by
  have hlt := read_all_lt a hbytes
  have hlen : (read_fp16_le_slice a).length = m * k := by
    rw [read_fp16_le_slice_length, ha]
    omega
  simp only [gemm_spec_bytes]
  rw [read_flatBytes _ (identity16_lt k)]
  congr 1
  rw [List.map_flatten,
    map_eq_flatten_rows normalizeSignedZero16 k m (read_fp16_le_slice a) hlen,
    List.map_map]
  congr 1
  apply List.map_congr_left
  intro i hi
  have hi' : i < m := List.mem_range.mp hi
  show (spec_row ((read_fp16_le_slice a).map f16_to_f32)
      ((identity16 k).map f16_to_f32) k k i).map f32_to_f16 = _
  rw [spec_row, List.map_map]
  apply List.map_congr_left
  intro j hj
  have hj' : j < k := List.mem_range.mp hj
  show f32_to_f16 (spec_entry ((read_fp16_le_slice a).map f16_to_f32)
      ((identity16 k).map f16_to_f32) k k i j) =
    normalizeSignedZero16 ((read_fp16_le_slice a).getD (i * k + j) 0)
  rw [spec_entry_right_identity (read_fp16_le_slice a) m k i j hi' hj' hlen
    hfin, normalizeSignedZero16]
  have hidx : i * k + j < (read_fp16_le_slice a).length := by
    rw [hlen]
    calc i * k + j < i * k + k := by omega
    _ = (i + 1) * k := by ring
    _ ≤ m * k := Nat.mul_le_mul_right k (by omega)
  have hmem : (read_fp16_le_slice a).getD (i * k + j) 0 ∈
      read_fp16_le_slice a := by
    rw [List.getD_eq_getElem _ _ hidx]
    exact List.getElem_mem hidx
  by_cases hz : (read_fp16_le_slice a).getD (i * k + j) 0 % 2 ^ 15 = 0
  · rw [if_pos hz, if_pos hz]
    decide
  · rw [if_neg hz, if_neg hz]
    apply roundtrip16
    · exact hlt _ hmem
    · simp only [isNaN16, Bool.and_eq_false_iff, decide_eq_false_iff_not]
      left
      exact hfin _ hmem

/-- Specification bytes of `I_k · B`: the serialized input halfs with signed
zeros normalized. -/
theorem gemm_spec_bytes_left_identity (b : List Nat) (k n : Nat)
    (hbytes : ∀ x ∈ b, x < 256) (hb : b.length = k * n * 2)
    (hfin : ∀ u ∈ read_fp16_le_slice b, f16exp u ≠ 31) :
    gemm_spec_bytes (flatBytes (identity16 k)) b k n k =
      flatBytes ((read_fp16_le_slice b).map normalizeSignedZero16) := by
  have hlt := read_all_lt b hbytes
  have hlen : (read_fp16_le_slice b).length = k * n := by
    rw [read_fp16_le_slice_length, hb]
    omega
  simp only [gemm_spec_bytes]
  rw [read_flatBytes _ (identity16_lt k)]
  congr 1
  rw [List.map_flatten,
    map_eq_flatten_rows normalizeSignedZero16 n k (read_fp16_le_slice b) hlen,
    List.map_map]
  congr 1
  apply List.map_congr_left
  intro i hi
  have hi' : i < k := List.mem_range.mp hi
  show (spec_row ((identity16 k).map f16_to_f32)
      ((read_fp16_le_slice b).map f16_to_f32) n k i).map f32_to_f16 = _
  rw [spec_row, List.map_map]
  apply List.map_congr_left
  intro j hj
  have hj' : j < n := List.mem_range.mp hj
  show f32_to_f16 (spec_entry ((identity16 k).map f16_to_f32)
      ((read_fp16_le_slice b).map f16_to_f32) n k i j) =
    normalizeSignedZero16 ((read_fp16_le_slice b).getD (i * n + j) 0)
  rw [spec_entry_left_identity (read_fp16_le_slice b) k n i j hi' hj' hlen
    hfin, normalizeSignedZero16]
  have hidx : i * n + j < (read_fp16_le_slice b).length := by
    rw [hlen]
    calc i * n + j < i * n + n := by omega
    _ = (i + 1) * n := by ring
    _ ≤ k * n := Nat.mul_le_mul_right n (by omega)
  have hmem : (read_fp16_le_slice b).getD (i * n + j) 0 ∈
      read_fp16_le_slice b := by
    rw [List.getD_eq_getElem _ _ hidx]
    exact List.getElem_mem hidx
  by_cases hz : (read_fp16_le_slice b).getD (i * n + j) 0 % 2 ^ 15 = 0
  · rw [if_pos hz, if_pos hz]
    decide
  · rw [if_neg hz, if_neg hz]
    apply roundtrip16
    · exact hlt _ hmem
    · simp only [isNaN16, Bool.and_eq_false_iff, decide_eq_false_iff_not]
      left
      exact hfin _ hmem

/-- Multiplying on the right by the k×k identity returns the serialized
input halfs with signed zeros normalized. -/
theorem gemm_right_identity (alloc : Nat → Bool) (a : List Nat) (m k : Nat)
    (hk : 0 < k) (hbytes : ∀ x ∈ a, x < 256)
    (ha : a.length = m * k * 2) (hsa : m * k * 2 < USIZE)
    (hsb : k * k * 2 < USIZE) (hcap : 4 * (m * k) ≤ ISIZE_MAX)
    (hfin : ∀ u ∈ read_fp16_le_slice a, f16exp u ≠ 31)
    (halloc : alloc (m * k * 2) = true) :
    gemm_fp16_acc32 alloc a (flatBytes (identity16 k)) m k k =
      some (NifTerm.okBin (flatBytes ((read_fp16_le_slice a).map
        normalizeSignedZero16))) := by
  have hidlen : (flatBytes (identity16 k)).length = k * k * 2 := by
    rw [flatBytes_length, identity16, List.length_map, List.length_range]
    ring
  rw [gemm_run alloc a (flatBytes (identity16 k)) m k k hk ha hsa hidlen hsb
    (by omega : m * k < USIZE) hcap]
  rw [if_pos hsa, if_pos halloc, if_pos hsa,
    gemm_spec_bytes_right_identity a m k hbytes ha hfin]

/-- Multiplying on the left by the k×k identity returns the serialized
input halfs with signed zeros normalized. -/
theorem gemm_left_identity (alloc : Nat → Bool) (b : List Nat) (k n : Nat)
    (hn : 0 < n) (hbytes : ∀ x ∈ b, x < 256)
    (hb : b.length = k * n * 2) (hsb : k * n * 2 < USIZE)
    (hsa : k * k * 2 < USIZE) (hcap : 4 * (k * n) ≤ ISIZE_MAX)
    (hfin : ∀ u ∈ read_fp16_le_slice b, f16exp u ≠ 31)
    (halloc : alloc (k * n * 2) = true) :
    gemm_fp16_acc32 alloc (flatBytes (identity16 k)) b k n k =
      some (NifTerm.okBin (flatBytes ((read_fp16_le_slice b).map
        normalizeSignedZero16))) := by
  have hidlen : (flatBytes (identity16 k)).length = k * k * 2 := by
    rw [flatBytes_length, identity16, List.length_map, List.length_range]
    ring
  rw [gemm_run alloc (flatBytes (identity16 k)) b k n k hn hidlen hsa hb hsb
    (by omega : k * n < USIZE) hcap]
  rw [if_pos hsb, if_pos halloc, if_pos hsb,
    gemm_spec_bytes_left_identity b k n hbytes hb hfin]

/-! ### Identity-matrix multiplication (C7) -/

/-- Counterexample to C7 as stated: the valid 1×2 × 2×2 call with
A = [∞, 1.0] and B = I₂ succeeds, but output element 1 is NaN (∞·0.0 in
the off-diagonal accumulation) while the corresponding input element is
1.0, so the output does not equal the non-identity operand within any
rounding tolerance. -/
theorem gemm_identity_counterexample :
    gemm_fp16_acc32 (fun _ => true) [0x00, 0x7C, 0x00, 0x3C]
        [0x00, 0x3C, 0x00, 0x00, 0x00, 0x00, 0x00, 0x3C] 1 2 2 =
      some (NifTerm.okBin [0x00, 0x7C, 0x00, 0x7E]) ∧
    isNaN16 ((read_fp16_le_slice [0x00, 0x7C, 0x00, 0x7E]).getD 1 0) =
      true ∧
    isNaN16 ((read_fp16_le_slice [0x00, 0x7C, 0x00, 0x3C]).getD 1 0) =
      false := by
  refine ⟨?_, ?_, ?_⟩ <;> decide

/-- C7 as amended: for matrices whose entries are all finite (exponent
field ≠ 31) and shapes with at least one column (n = 0 panics, see C5)
whose sizes are representable — including the fp32 accumulator, whose
4·m·n bytes must stay within `isize::MAX` or the kernel panics with a
capacity overflow (see C3) —,
multiplying by the identity matrix of matching dimension on the right or
on the left returns exactly the other operand's elements, with negative
zeros normalized to positive zero (a numerically equal value, hence
"within half-precision rounding tolerance"); and the concrete scenario
m = n = k = 2, A = I₂, B = [[2,3],[4,5]] returns [[2,3],[4,5]]
bit-exactly. -/
theorem gemm_identity_preserves_operand :
    (∀ (alloc : Nat → Bool) (a : List Nat) (m k : Nat), 0 < k →
      (∀ x ∈ a, x < 256) → a.length = m * k * 2 → m * k * 2 < USIZE →
      k * k * 2 < USIZE → 4 * (m * k) ≤ ISIZE_MAX →
      (∀ u ∈ read_fp16_le_slice a, f16exp u ≠ 31) →
      alloc (m * k * 2) = true →
      gemm_fp16_acc32 alloc a (flatBytes (identity16 k)) m k k =
        some (NifTerm.okBin (flatBytes ((read_fp16_le_slice a).map
          normalizeSignedZero16)))) ∧
    (∀ (alloc : Nat → Bool) (b : List Nat) (k n : Nat), 0 < n →
      (∀ x ∈ b, x < 256) → b.length = k * n * 2 → k * n * 2 < USIZE →
      k * k * 2 < USIZE → 4 * (k * n) ≤ ISIZE_MAX →
      (∀ u ∈ read_fp16_le_slice b, f16exp u ≠ 31) →
      alloc (k * n * 2) = true →
      gemm_fp16_acc32 alloc (flatBytes (identity16 k)) b k n k =
        some (NifTerm.okBin (flatBytes ((read_fp16_le_slice b).map
          normalizeSignedZero16)))) ∧
    gemm_fp16_acc32 (fun _ => true)
        [0x00, 0x3C, 0x00, 0x00, 0x00, 0x00, 0x00, 0x3C]
        [0x00, 0x40, 0x00, 0x42, 0x00, 0x44, 0x00, 0x45] 2 2 2 =
      some (NifTerm.okBin
        [0x00, 0x40, 0x00, 0x42, 0x00, 0x44, 0x00, 0x45]) := by
  refine ⟨?_, ?_, ?_⟩
  · intro alloc a m k hk hbytes ha hsa hsb hcap hfin halloc
    exact gemm_right_identity alloc a m k hk hbytes ha hsa hsb hcap hfin
      halloc
  · intro alloc b k n hn hbytes hb hsb hsa hcap hfin halloc
    exact gemm_left_identity alloc b k n hn hbytes hb hsb hsa hcap hfin
      halloc
  · decide

/-- Witness for the amended C7: right-multiplying the 1×2 matrix
[4.0, −5.0] by I₂ at a concrete input. -/
theorem gemm_identity_preserves_operand_witness :
    gemm_fp16_acc32 (fun _ => true) [0x00, 0x44, 0x00, 0xC5]
        (flatBytes (identity16 2)) 1 2 2 =
      some (NifTerm.okBin (flatBytes
        ((read_fp16_le_slice [0x00, 0x44, 0x00, 0xC5]).map
          normalizeSignedZero16))) :=
  gemm_identity_preserves_operand.1 (fun _ => true) [0x00, 0x44, 0x00, 0xC5]
    1 2 (by decide) (by decide) (by decide) (by decide) (by decide)
    (by decide) (by decide) rfl
